import Mathlib

/-!
Verification of the freezetag virtual filesystem (`freezetag/freezefs.py`).

The development shallowly embeds the data model and the operations of the
source file: the polite LRU cache, the three index maps (virtual path tree,
checksum map, absolute path map), the freezetag reference/keep-alive
subsystem, the FUSE-facing `getattr`/`open` operations, and the watcher
event handlers (`on_created`, `on_deleted`, `on_moved`, `on_modified`).

Python objects are modelled by an explicit heap (`St.heap`, a list of
`FrozenItem`s indexed by object id) so that the aliasing of `FrozenItem`
objects between `checksum_map`, the path tree and `abs_path_map` is
faithful.  Python dicts become association lists with insertion-order
semantics; Python exceptions become an explicit error component
(`Option PyErr` / `Except PyErr`) and every operation returns the state as
mutated up to the point where the exception escaped, matching Python's
behaviour of leaving partial mutations in place.

External collaborators that the source treats as opaque (the metadata
parser, the freezetag file reader, `stat`) are supplied by an `Env` record
of pure functions, mirroring the specification's description of them as
stateless functions.
-/

namespace Freezefs

/-! ## Association lists with Python dict semantics -/

/-- Dict lookup: value of the first binding of key `k`. -/
def alookup [DecidableEq κ] (k : κ) : List (κ × ν) → Option ν
  | [] => none
  | (k', v) :: l => if k' = k then some v else alookup k l

/-- Dict assignment `d[k] = v`: replaces the first binding of `k` in place
(keeping its position, as a Python dict does) or appends a fresh binding. -/
def ainsert [DecidableEq κ] (k : κ) (v : ν) : List (κ × ν) → List (κ × ν)
  | [] => [(k, v)]
  | (k', v') :: l => if k' = k then (k, v) :: l else (k', v') :: ainsert k v l

/-- Dict deletion `del d[k]`: removes the first binding of `k`. -/
def aerase [DecidableEq κ] (k : κ) : List (κ × ν) → List (κ × ν)
  | [] => []
  | (k', v') :: l => if k' = k then l else (k', v') :: aerase k l

/-- The keys of an association list. -/
def akeys (l : List (κ × ν)) : List κ := l.map Prod.fst


/-! ## The polite LRU cache (`PoliteLRUCache`)

The cache is an ordered dict: an association list in recency order, the
head being the least-recent entry.  `lruEvict` is the eviction loop of
`__setitem__`: it runs at most `n` iterations, examining the current
least-recent entry each time; a purgeable entry is deleted and the loop
stops, an unpurgeable one is moved to the most-recent end. -/

def lruEvict (canPurge : κ → Bool) : Nat → List (κ × ν) → List (κ × ν)
  | 0, l => l
  | _ + 1, [] => []
  | n + 1, (k, v) :: l => if canPurge k then l else lruEvict canPurge n (l ++ [(k, v)])

/-- `PoliteLRUCache.__setitem__`: store the binding, then, if the size
exceeds `maxsize`, run the eviction loop for `size - maxsize` iterations. -/
def lruSetitem [DecidableEq κ] (canPurge : κ → Bool) (maxsize : Nat) (k : κ) (v : ν)
    (l : List (κ × ν)) : List (κ × ν) :=
  let l1 := ainsert k v l
  if maxsize < l1.length then lruEvict canPurge (l1.length - maxsize) l1 else l1

/-- `OrderedDict.move_to_end`. -/
def moveToEnd [DecidableEq κ] (k : κ) (l : List (κ × ν)) : List (κ × ν) :=
  match alookup k l with
  | none => l
  | some v => aerase k l ++ [(k, v)]

/-! ## Data model

`FrozenItemFreezetagEntry`, `FrozenItemFileEntry`, `FrozenItem` from the
source.  Virtual paths are the component tuples produced by `Path.parts`
(so `/Album/01.flac` is `["/", "Album", "01.flac"]`); on-disk paths are
opaque identifiers (`Nat`). -/

/-- `FrozenItemFreezetagEntry`: `freezetag_path`, `path` (virtual), `metadata_len`. -/
structure FtagEntry where
  freezetag_path : Nat
  path : List String
  metadata_len : Nat
deriving DecidableEq

/-- `FrozenItemFileEntry`: `path` (on disk) and `metadata_len`
(`metadata_info` carries no observable behaviour in the modelled
operations and is omitted). -/
structure FileEntry where
  path : Nat
  metadata_len : Nat
deriving DecidableEq

/-- `FrozenItem`: a checksum with its freezetag entries and file entries. -/
structure FrozenItem where
  checksum : Nat
  freezetags : List FtagEntry
  files : List FileEntry
deriving DecidableEq

/-- A node of `path_map`: a directory dict or a `FrozenItem` leaf.  Leaves
hold the heap id of the item (Python aliases the object itself). -/
inductive PNode where
  | dir (children : List (String × PNode))
  | leaf (id : Nat)

/-- A file record inside a parsed freezetag (`freezetag.data.frozen.files`):
relative path components, checksum, and the total metadata length that
`MusicMetadata.from_state` would report for it. -/
structure FtagFile where
  path : List String
  checksum : Nat
  metadata_len : Nat
deriving DecidableEq

/-- A parsed freezetag (`freezetag.data.frozen`): root path components and
the file list. -/
structure FtagData where
  root : List String
  files : List FtagFile
deriving DecidableEq

/-- Python exception kinds that can escape the modelled operations.
`enoent` stands for `FuseOSError(ENOENT)`. -/
inductive PyErr where
  | enoent
  | typeError
  | indexError
  | keyError
  | attrError
  | assertError
  | parseError
deriving DecidableEq

/-- The pure external collaborators (metadata parser, freezetag reader,
`stat`, suffix/direntry tests) plus the configured uid/gid. -/
structure Env where
  isDir : Nat → Bool
  isFtag : Nat → Bool
  fileInfo : Nat → Option (Nat × Nat)
  parseFtag : Nat → Option FtagData
  statSize : Nat → Int
  cfgUid : Nat
  cfgGid : Nat

/-- `FREEZETAG_CACHE_LIMIT`. -/
def FREEZETAG_CACHE_LIMIT : Nat := 10

/-- The whole `FreezeFS` state: the object heap (ids are list indices),
`path_map` (top-level dict), `checksum_map` (checksum to heap id),
`abs_path_map` (disk path to heap id), `freezetag_map`
(freezetag path to `(virtual_root, [checksum])`), `inactive_freezetags`,
the freezetag LRU cache (keys with parsed values, recency order, least
recent first) and `freezetag_refs` (open counts; the timer handle has no
modelled behaviour beyond scheduling, which `purgeFtag` represents). -/
structure St where
  heap : List FrozenItem
  tree : List (String × PNode)
  checksum_map : List (Nat × Nat)
  abs_path_map : List (Nat × Nat)
  freezetag_map : List (Nat × (List String × List Nat))
  inactive : List (List String × Nat)
  cache : List (Nat × FtagData)
  refs : List (Nat × Int)

/-- The state right after `__init__`: `path_map = {'/': {}}`, all other
maps empty. -/
def initSt : St :=
  { heap := []
    tree := [("/", .dir [])]
    checksum_map := []
    abs_path_map := []
    freezetag_map := []
    inactive := []
    cache := []
    refs := [] }

/-- Read a `FrozenItem` from the heap (ids produced by the operations are
always in range; the default is never reachable from `initSt`). -/
def heapGet (s : St) (id : Nat) : FrozenItem :=
  s.heap.getD id ⟨0, [], []⟩

/-- Overwrite a heap cell (mutation of the aliased Python object). -/
def heapSet (s : St) (id : Nat) (it : FrozenItem) : St :=
  { s with heap := s.heap.set id it }

/-! ## `_get_item` and the path-tree mutations -/

/-- The loop body of `_get_item`: walk the remaining parts from a node.
`part not in item` on a `FrozenItem` raises `TypeError` in Python. -/
def nodeGet : PNode → List String → Except PyErr (Option PNode)
  | n, [] => .ok (some n)
  | .dir children, p :: ps =>
      match alookup p children with
      | none => .ok none
      | some n => nodeGet n ps
  | .leaf _, _ :: _ => .error .typeError

/-- `_get_item(path)`: walk `Path(path).parts` from `path_map`. -/
def getItem (tree : List (String × PNode)) (ps : List String) : Except PyErr (Option PNode) :=
  nodeGet (.dir tree) ps

/-- Python truthiness of a `_get_item` result: `None` and the empty dict
are falsy; a non-empty dict and any `FrozenItem` are truthy. -/
def nodeTruthy : Option PNode → Bool
  | none => false
  | some (.dir []) => false
  | some (.dir (_ :: _)) => true
  | some (.leaf _) => true

/-- The tree-insertion loop of `_add_freezetag_entry`: create missing
intermediate dicts, then assign the leaf.  Subscripting a `FrozenItem`
mid-path raises `TypeError`; an empty parts tuple would raise
`IndexError` on `parts[-1]`. -/
def treeInsert (id : Nat) : List (String × PNode) → List String → Except PyErr (List (String × PNode))
  | _, [] => .error .indexError
  | children, [p] => .ok (ainsert p (.leaf id) children)
  | children, p :: q :: ps =>
      match alookup p children with
      | none =>
          match treeInsert id [] (q :: ps) with
          | .error er => .error er
          | .ok sub => .ok (ainsert p (.dir sub) children)
      | some (.dir sub) =>
          match treeInsert id sub (q :: ps) with
          | .error er => .error er
          | .ok sub' => .ok (ainsert p (.dir sub') children)
      | some (.leaf _) => .error .typeError

/-- The pruning walk of `_delete_if_dangling`: descend along the parts
(raising `KeyError` for a missing key and `TypeError` when subscripting a
leaf mid-path), delete the final key, and keep deleting emptied parent
dicts bottom-up.  The boolean reports whether the returned dict became
empty so the caller must keep deleting. -/
def pruneNode : List (String × PNode) → List String → Except PyErr (List (String × PNode) × Bool)
  | _, [] => .ok ([], false)
  | children, [p] =>
      match alookup p children with
      | none => .error .keyError
      | some _ => .ok (aerase p children, (aerase p children).isEmpty)
  | children, p :: q :: ps =>
      match alookup p children with
      | none => .error .keyError
      | some (.leaf _) => .error .typeError
      | some (.dir sub) =>
          match pruneNode sub (q :: ps) with
          | .error er => .error er
          | .ok (sub', cont) =>
              if cont then .ok (aerase p children, (aerase p children).isEmpty)
              else .ok (ainsert p (.dir sub') children, false)

/-! ## Index mutators -/

/-- The first half of `_add_freezetag_entry`: find the item for the
checksum or create and register a fresh one, and append the entry to its
freezetags (creation, registration and the append have no observable
intermediate state, so the fresh item is built in one step). -/
def findOrCreateF (s : St) (c : Nat) (e : FtagEntry) : Nat × St :=
  match alookup c s.checksum_map with
  | some id =>
      (id, heapSet s id
        { heapGet s id with freezetags := (heapGet s id).freezetags ++ [e] })
  | none =>
      (s.heap.length,
        { s with
            heap := s.heap ++ [⟨c, [e], []⟩]
            checksum_map := ainsert c s.heap.length s.checksum_map })

/-- `_add_freezetag_entry`: find or create the item for the checksum,
append the entry, `assert not self._get_item(entry.path)` (an
`AssertionError` leaves the appended entry behind), then insert the leaf
into the path tree. -/
def addFreezetagEntry (s : St) (c : Nat) (e : FtagEntry) : St × Option PyErr :=
  match findOrCreateF s c e with
  | (id, s2) =>
      match getItem s2.tree e.path with
      | .error er => (s2, some er)
      | .ok r =>
          if nodeTruthy r then (s2, some .assertError)
          else
            match treeInsert id s2.tree e.path with
            | .error er => (s2, some er)
            | .ok t' => ({ s2 with tree := t' }, none)

/-- `_add_path_entry`: find or create the item, append the file entry and
point `abs_path_map[entry.path]` at it. -/
def addPathEntry (s : St) (c : Nat) (e : FileEntry) : St :=
  match alookup c s.checksum_map with
  | some id =>
      let it := heapGet s id
      let s1 := heapSet s id { it with files := it.files ++ [e] }
      { s1 with abs_path_map := ainsert e.path id s1.abs_path_map }
  | none =>
      let id := s.heap.length
      let s1 :=
        { s with
            heap := s.heap ++ [({ checksum := c, freezetags := [], files := [e] } : FrozenItem)]
            checksum_map := ainsert c id s.checksum_map }
      { s1 with abs_path_map := ainsert e.path id s1.abs_path_map }

/-- The first step of `_delete_if_dangling`: drop the checksum from
`checksum_map` when both collections of the item are empty. -/
def dIDcm (s : St) (id : Nat) : St :=
  if (heapGet s id).freezetags.isEmpty && (heapGet s id).files.isEmpty then
    { s with checksum_map := aerase (heapGet s id).checksum s.checksum_map }
  else s

/-- The last step of `_delete_if_dangling`: drop `abs_path_map[file_path]`
when the item's files collection is empty. -/
def dIDabs (it : FrozenItem) (filePath : Option Nat) (s2 : St) : St × Option PyErr :=
  match filePath with
  | some p =>
      if it.files.isEmpty then
        ({ s2 with abs_path_map := aerase p s2.abs_path_map }, none)
      else (s2, none)
  | none => (s2, none)

/-- `_delete_if_dangling`: drop the checksum when both collections are
empty; prune the path tree when a `fuse_path` is given and no remaining
freezetag entry claims it (the pruning walk can raise `KeyError` or
`TypeError`, escaping with the checksum already dropped); drop
`abs_path_map[file_path]` when the files collection is empty. -/
def deleteIfDangling (s : St) (id : Nat) (fusePath : Option (List String))
    (filePath : Option Nat) : St × Option PyErr :=
  match fusePath with
  | some fp =>
      if (heapGet s id).freezetags.any (fun e => e.path == fp) then
        dIDabs (heapGet s id) filePath (dIDcm s id)
      else
        match pruneNode (dIDcm s id).tree fp with
        | .error er => (dIDcm s id, some er)
        | .ok (t', _) => dIDabs (heapGet s id) filePath { dIDcm s id with tree := t' }
  | none => dIDabs (heapGet s id) filePath (dIDcm s id)

/-! ## Freezetag cache and reference tracking -/

/-- `_can_purge_ftag`: purgeable iff no ref record or `open_count <= 0`. -/
def canPurgeFtag (refs : List (Nat × Int)) (p : Nat) : Bool :=
  match alookup p refs with
  | none => true
  | some c => decide (c ≤ 0)

/-- `no_refs` in `_purge_ftag`: the path has a ref record with
`open_count <= 0`. -/
def purgeNoRefs (s : St) (p : Nat) : Bool :=
  match alookup p s.refs with
  | some c => decide (c ≤ 0)
  | none => false

/-- First half of `_purge_ftag`: delete the cache entry when forced or
unreferenced. -/
def purgeCache (s : St) (p : Nat) (force : Bool) : St :=
  if (force || purgeNoRefs s p) && (alookup p s.cache).isSome then
    { s with cache := aerase p s.cache }
  else s

/-- `_purge_ftag(path, force)`: delete the cache entry when forced or
unreferenced, then drop the ref record when unreferenced (`no_refs` was
computed before either deletion). -/
def purgeFtag (s : St) (p : Nat) (force : Bool) : St :=
  if purgeNoRefs s p && (alookup p (purgeCache s p force).refs).isSome then
    { purgeCache s p force with refs := aerase p (purgeCache s p force).refs }
  else purgeCache s p force

/-- `_schedule_purge_ftag`: create the ref record with count 0 when
absent; otherwise only the timer handle is replaced, which has no
modelled state. -/
def schedulePurge (s : St) (p : Nat) : St :=
  if (alookup p s.refs).isSome then s
  else { s with refs := ainsert p 0 s.refs }

/-- `PoliteLRUCache.__getitem__` for the freezetag cache: on a hit the
stored value is returned, on a miss the loader (`Freezetag.from_path`)
runs; a loader failure propagates without inserting.  Either way the key
is moved to most-recent. -/
def cacheGetFtag (env : Env) (s : St) (p : Nat) : Option FtagData × St :=
  match alookup p s.cache with
  | some d => (some d, { s with cache := moveToEnd p s.cache })
  | none =>
      match env.parseFtag p with
      | none => (none, s)
      | some d =>
          let c1 := lruSetitem (canPurgeFtag s.refs) FREEZETAG_CACHE_LIMIT p d s.cache
          (some d, { s with cache := moveToEnd p c1 })

/-! ## `_add_ftag` and `_add_file` -/

/-- The per-file loop of `_add_ftag`: add a freezetag entry and append the
checksum to the `freezetag_map` record; an exception aborts the loop with
the mutations made so far kept. -/
def addFtagFiles (s : St) (p : Nat) (root : List String) :
    List FtagFile → St × Option PyErr
  | [] => (s, none)
  | f :: fs =>
      match addFreezetagEntry s f.checksum ⟨p, root ++ f.path, f.metadata_len⟩ with
      | (s1, some er) => (s1, some er)
      | (s1, none) =>
          let fm' :=
            match alookup p s1.freezetag_map with
            | some (r, cs) => ainsert p (r, cs ++ [f.checksum]) s1.freezetag_map
            | none => s1.freezetag_map
          addFtagFiles { s1 with freezetag_map := fm' } p root fs

/-- `_add_ftag`: load through the cache (a parse failure is logged and
swallowed), schedule the keep-alive, defer to `inactive_freezetags` when
the virtual root is truthy, otherwise record the freezetag and mount all
its files. -/
def addFtag (env : Env) (s : St) (p : Nat) : St × Option PyErr :=
  match cacheGetFtag env s p with
  | (none, s1) => (s1, none)
  | (some d, s1) =>
      let s2 := schedulePurge s1 p
      let root : List String := "/" :: d.root
      match getItem s2.tree root with
      | .error er => (s2, some er)
      | .ok r =>
          if nodeTruthy r then
            ({ s2 with inactive := s2.inactive ++ [(root, p)] }, none)
          else
            let s3 := { s2 with freezetag_map := ainsert p (root, []) s2.freezetag_map }
            addFtagFiles s3 p root d.files

/-- `_add_file`: stat/parse/strip failures are logged and swallowed
(`env.fileInfo` returns `none`); otherwise the checksum and metadata
length are obtained (from the checksum db or by parsing — both produce
the same entry) and `_add_path_entry` runs. -/
def addFile (env : Env) (s : St) (p : Nat) : St :=
  match env.fileInfo p with
  | none => s
  | some (c, mlen) => addPathEntry s c ⟨p, mlen⟩

/-! ## FUSE surface: `getattr` and `open` -/

/-- The stat fields the claims are about.  For a file, `st_size` is the
on-disk size adjusted by `frozen_metadata_len - stripped_metadata_len`,
and uid/gid are the configured values (directories carry no size field in
the source; 0 stands in). -/
structure StatD where
  st_size : Int
  st_uid : Nat
  st_gid : Nat
deriving DecidableEq

/-- `FreezeFS.getattr`. -/
def getattr (env : Env) (s : St) (p : List String) : Except PyErr StatD :=
  match getItem s.tree p with
  | .error er => .error er
  | .ok none => .error .enoent
  | .ok (some (.leaf id)) =>
      let it := heapGet s id
      if it.freezetags.isEmpty || it.files.isEmpty then .error .enoent
      else
        match it.freezetags.find? (fun e => e.path == p) with
        | none => .error .enoent
        | some fe =>
            let f0 := it.files.headD ⟨0, 0⟩
            .ok { st_size := env.statSize f0.path + (fe.metadata_len : Int) - (f0.metadata_len : Int)
                  st_uid := env.cfgUid
                  st_gid := env.cfgGid }
  | .ok (some (.dir _)) => .ok { st_size := 0, st_uid := env.cfgUid, st_gid := env.cfgGid }

/-- `FreezeFS.open` (named `fsOpen`; `open` is reserved in Lean).  `if not
item` treats `None` and the empty dict as absent; `item.files[0]` on an
empty list raises `IndexError`, and on a non-empty dict raises
`AttributeError`.  When the matching entry carries metadata the ref count
is incremented and the freezetag is resolved through the cache (a loader
failure escapes).  The result stands for the constructed `FuseFile`. -/
def fsOpen (env : Env) (s : St) (p : List String) : St × Except PyErr (FileEntry × FtagEntry) :=
  match getItem s.tree p with
  | .error er => (s, .error er)
  | .ok none => (s, .error .enoent)
  | .ok (some (.dir [])) => (s, .error .enoent)
  | .ok (some (.dir (_ :: _))) => (s, .error .attrError)
  | .ok (some (.leaf id)) =>
      let it := heapGet s id
      match it.files with
      | [] => (s, .error .indexError)
      | f0 :: _ =>
          match it.freezetags.find? (fun e => e.path == p) with
          | none => (s, .error .enoent)
          | some fe =>
              if fe.metadata_len ≠ 0 then
                let refs1 :=
                  if (alookup fe.freezetag_path s.refs).isSome then s.refs
                  else ainsert fe.freezetag_path 0 s.refs
                let refs2 :=
                  match alookup fe.freezetag_path refs1 with
                  | some c => ainsert fe.freezetag_path (c + 1) refs1
                  | none => refs1
                let s1 := { s with refs := refs2 }
                match cacheGetFtag env s1 fe.freezetag_path with
                | (none, s2) => (s2, .error .parseError)
                | (some _, s2) => (s2, .ok (f0, fe))
              else (s, .ok (f0, fe))

/-! ## Watcher handlers -/

/-- Replace the first element satisfying `pred` (the `for ...: if ...:
mutate; break` idiom). -/
def updateFirst (pred : α → Bool) (f : α → α) : List α → List α
  | [] => []
  | x :: xs => if pred x then f x :: xs else x :: updateFirst pred f xs

/-- Find and remove the first element satisfying `pred`
(`for ...: if ...: list.remove(x); break`). -/
def findRemoveFirst (pred : α → Bool) : List α → Option (α × List α)
  | [] => none
  | x :: xs =>
      if pred x then some (x, xs)
      else (findRemoveFirst pred xs).map (fun r => (r.1, x :: r.2))

/-- The entry-removal loop of `on_deleted` for a freezetag: for each
recorded checksum, look the item up in `checksum_map` (`KeyError` would
escape), remove the first entry with this freezetag path, and run
`_delete_if_dangling` on it. -/
def removeFtagEntries (fpath : Nat) : St → List Nat → St × Option PyErr
  | s, [] => (s, none)
  | s, c :: cs =>
      match alookup c s.checksum_map with
      | none => (s, some .keyError)
      | some id =>
          let it := heapGet s id
          match it.freezetags.find? (fun e => e.freezetag_path == fpath) with
          | none => removeFtagEntries fpath s cs
          | some e =>
              let s1 := heapSet s id
                { it with freezetags := it.freezetags.eraseP (fun e => e.freezetag_path == fpath) }
              match deleteIfDangling s1 id (some e.path) none with
              | (s2, some er) => (s2, some er)
              | (s2, none) => removeFtagEntries fpath s2 cs

/-- The promotion loop at the end of `on_deleted` for a freezetag: remove
the first inactive entry whose virtual root matches and `_add_ftag` it. -/
def promoteInactive (env : Env) (s : St) (root : List String) : St × Option PyErr :=
  match findRemoveFirst (fun t => t.1 == root) s.inactive with
  | none => (s, none)
  | some (t, rest) => addFtag env { s with inactive := rest } t.2

/-- `FreezeFS.on_created`. -/
def onCreated (env : Env) (s : St) (p : Nat) : St × Option PyErr :=
  if env.isDir p then (s, none)
  else if env.isFtag p then addFtag env s p
  else (addFile env s p, none)

/-- `FreezeFS.on_deleted`. -/
def onDeleted (env : Env) (s : St) (p : Nat) : St × Option PyErr :=
  if !env.isFtag p then
    match alookup p s.abs_path_map with
    | none => (s, none)
    | some id =>
        let it := heapGet s id
        match it.files.find? (fun e => e.path == p) with
        | none => (s, none)
        | some _ =>
            let s1 := heapSet s id { it with files := it.files.eraseP (fun e => e.path == p) }
            deleteIfDangling s1 id none (some p)
  else
    let s1 := purgeFtag s p true
    match alookup p s1.freezetag_map with
    | none =>
        match findRemoveFirst (fun t => t.2 == p) s1.inactive with
        | none => (s1, none)
        | some (_, rest) => ({ s1 with inactive := rest }, none)
    | some (root, cs) =>
        match removeFtagEntries p s1 cs with
        | (s2, some er) => (s2, some er)
        | (s2, none) =>
            let s3 := { s2 with freezetag_map := aerase p s2.freezetag_map }
            promoteInactive env s3 root

/-- The per-checksum loop of `on_moved` rewriting `freezetag_path` on a
freezetag rename. -/
def renameFtagEntries (src dst : Nat) : St → List Nat → St × Option PyErr
  | s, [] => (s, none)
  | s, c :: cs =>
      match alookup c s.checksum_map with
      | none => (s, some .keyError)
      | some id =>
          let it := heapGet s id
          let fts := updateFirst (fun e => e.freezetag_path == src)
            (fun e => { e with freezetag_path := dst }) it.freezetags
          let s1 := heapSet s id { it with freezetags := fts }
          renameFtagEntries src dst s1 cs

/-- `FreezeFS.on_moved`. -/
def onMoved (env : Env) (s : St) (src dst : Nat) : St × Option PyErr :=
  if env.isDir dst then (s, none)
  else if env.isFtag src then
    let s1 := purgeFtag s src true
    match alookup src s1.freezetag_map with
    | none =>
        ({ s1 with inactive := updateFirst (fun t => t.2 == src) (fun t => (t.1, dst)) s1.inactive },
          none)
    | some fm =>
        let s2 := { s1 with freezetag_map := ainsert dst fm (aerase src s1.freezetag_map) }
        renameFtagEntries src dst s2 fm.2
  else
    match alookup src s.abs_path_map with
    | none => (s, some .keyError)
    | some id =>
        let s1 := { s with abs_path_map := ainsert dst id (aerase src s.abs_path_map) }
        let it := heapGet s1 id
        (heapSet s1 id
          { it with files := it.files.map (fun e => if e.path == src then { e with path := dst } else e) },
          none)

/-- `FreezeFS.on_modified`: `on_deleted` then `on_created` (the second
call is skipped if the first raised). -/
def onModified (env : Env) (s : St) (p : Nat) : St × Option PyErr :=
  match onDeleted env s p with
  | (s1, some er) => (s1, some er)
  | (s1, none) => onCreated env s1 p

/-- A filesystem event delivered to the watcher (or one step of the
initial scan, which calls the same `_add_ftag`/`_add_file`). -/
inductive Ev where
  | created (p : Nat)
  | deleted (p : Nat)
  | moved (src dst : Nat)
  | modified (p : Nat)

/-- Dispatch one event. -/
def step (env : Env) (s : St) : Ev → St × Option PyErr
  | .created p => onCreated env s p
  | .deleted p => onDeleted env s p
  | .moved a b => onMoved env s a b
  | .modified p => onModified env s p

/-- Run a sequence of events from a state; an escaped exception kills the
observer thread, so the trace stops there with the partial mutations
kept. -/
def runTrace (env : Env) : St → List Ev → St
  | s, [] => s
  | s, e :: es =>
      match step env s e with
      | (s', some _) => s'
      | (s', none) => runTrace env s' es

/-- An item is live when at least one of its two collections is
non-empty (as the claims put it: it has at least one entry). -/
def itemLive (it : FrozenItem) : Prop := it.freezetags ≠ [] ∨ it.files ≠ []

/-- The checksum-map invariant (claim P2): every binding of
`checksum_map` points to an existing, live item carrying that checksum,
every live item of the heap is registered in `checksum_map` under its
checksum at its own id, and the map's keys are unique (it is a dict). -/
def checksumInv (heap : List FrozenItem) (cm : List (Nat × Nat)) : Prop :=
  (∀ pr ∈ cm, ∃ it, heap.get? pr.2 = some it ∧ it.checksum = pr.1 ∧ itemLive it) ∧
  (∀ id it, heap.get? id = some it → itemLive it → alookup it.checksum cm = some id) ∧
  (akeys cm).Nodup

/-- A concrete environment used to evaluate the operations on concrete
states: disk path 0 is a freezetag parsing to root `A` with one file `x`
(checksum 7, metadata length 5); disk path 1 is a freezetag parsing to an
empty root string with one file `x` (checksum 9, metadata length 3); every
other disk path is a content file that fails to stat or parse. -/
def cenv : Env :=
  { isDir := fun _ => false
    isFtag := fun p => p == 0 || p == 1
    fileInfo := fun _ => none
    parseFtag := fun p =>
      if p == 0 then some ⟨["A"], [⟨["x"], 7, 5⟩]⟩
      else if p == 1 then some ⟨[], [⟨["x"], 9, 3⟩]⟩
      else none
    statSize := fun _ => 100
    cfgUid := 42
    cfgGid := 43 }

/-- A concrete live state: checksum 7 is mounted at `/A/x` by freezetag 0
(frozen metadata length 5) and backed by content file 3 (stripped
metadata length 2). -/
def exLive : St :=
  { heap := [⟨7, [⟨0, ["/", "A", "x"], 5⟩], [⟨3, 2⟩]⟩]
    tree := [("/", .dir [("A", .dir [("x", .leaf 0)])])]
    checksum_map := [(7, 0)]
    abs_path_map := [(3, 0)]
    freezetag_map := [(0, (["/", "A"], [7]))]
    inactive := []
    cache := []
    refs := [] }

/-- A path tree holding exactly one chain of directories ending in a
leaf (the shape `_add_freezetag_entry` builds under a fresh root). -/
def mkChain (id : Nat) : List String → List (String × PNode)
  | [] => []
  | [p] => [(p, .leaf id)]
  | p :: q :: ps => [(p, .dir (mkChain id (q :: ps)))]

/-! ## Lemmas about the association-list operations -/

theorem alookup_ainsert_self [DecidableEq κ] (k : κ) (v : ν) (l : List (κ × ν)) :
    alookup k (ainsert k v l) = some v := by
  induction l with
  | nil => simp [ainsert, alookup]
  | cons h t ih =>
    obtain ⟨k', v'⟩ := h
    by_cases hk : k' = k <;> simp [ainsert, alookup, hk, ih]

theorem alookup_ainsert_ne [DecidableEq κ] (k k' : κ) (v : ν) (l : List (κ × ν))
    (h : k' ≠ k) : alookup k' (ainsert k v l) = alookup k' l := by
  induction l with
  | nil => simp [ainsert, alookup, Ne.symm h]
  | cons hd t ih =>
    obtain ⟨k₀, v₀⟩ := hd
    by_cases hk : k₀ = k
    · subst hk
      simp [ainsert, alookup, Ne.symm h]
    · simp [ainsert, hk, alookup, ih]

theorem alookup_aerase_ne [DecidableEq κ] (k k' : κ) (l : List (κ × ν))
    (h : k' ≠ k) : alookup k' (aerase k l) = alookup k' l := by
  induction l with
  | nil => simp [aerase]
  | cons hd t ih =>
    obtain ⟨k₀, v₀⟩ := hd
    by_cases hk : k₀ = k
    · subst hk
      simp [aerase, alookup, Ne.symm h]
    · simp [aerase, hk, alookup, ih]

theorem ainsert_of_not_mem [DecidableEq κ] (k : κ) (v : ν) (l : List (κ × ν))
    (h : k ∉ akeys l) : ainsert k v l = l ++ [(k, v)] := by
  induction l with
  | nil => simp [ainsert]
  | cons hd t ih =>
    obtain ⟨k₀, v₀⟩ := hd
    simp only [akeys, List.map_cons, List.mem_cons] at h
    push_neg at h
    simp [ainsert, Ne.symm h.1, ih (by simpa [akeys] using h.2)]

theorem alookup_eq_none_of_not_mem [DecidableEq κ] (k : κ) (l : List (κ × ν))
    (h : k ∉ akeys l) : alookup k l = none := by
  induction l with
  | nil => rfl
  | cons hd t ih =>
    obtain ⟨k₀, v₀⟩ := hd
    simp only [akeys, List.map_cons, List.mem_cons] at h
    push_neg at h
    simp [alookup, Ne.symm h.1, ih (by simpa [akeys] using h.2)]

theorem mem_akeys_of_alookup [DecidableEq κ] (k : κ) (v : ν) (l : List (κ × ν))
    (h : alookup k l = some v) : k ∈ akeys l := by
  induction l with
  | nil => simp [alookup] at h
  | cons hd t ih =>
    obtain ⟨k₀, v₀⟩ := hd
    simp only [alookup] at h
    by_cases hk : k₀ = k
    · subst hk
      simp [akeys]
    · rw [if_neg hk] at h
      simp only [akeys, List.map_cons, List.mem_cons]
      exact Or.inr (by simpa [akeys] using ih h)
theorem any_take_append_singleton_of_neg (p : κ × ν → Bool) (x : κ × ν) (l : List (κ × ν))
    (hx : p x = false) (n : Nat) : ((l ++ [x]).take n).any p = (l.take n).any p := by
  induction l generalizing n with
  | nil => cases n <;> simp [hx]
  | cons hd t ih =>
    cases n with
    | zero => simp
    | succ m => simp [List.take_succ_cons, List.any_cons, ih m]

theorem lruEvict_length (canPurge : κ → Bool) (n : Nat) (l : List (κ × ν)) :
    (lruEvict canPurge n l).length =
      if (l.take n).any (fun kv => canPurge kv.1) then l.length - 1 else l.length := by
  induction n generalizing l with
  | zero => simp [lruEvict]
  | succ m ih =>
    cases l with
    | nil => simp [lruEvict]
    | cons hd t =>
      obtain ⟨k, v⟩ := hd
      by_cases hp : canPurge k
      · simp [lruEvict, hp]
      · have hx : (fun kv : κ × ν => canPurge kv.1) (k, v) = false := by simp [hp]
        rw [lruEvict, if_neg hp, ih,
          any_take_append_singleton_of_neg (fun kv => canPurge kv.1) (k, v) t hx m]
        simp only [List.length_append, List.length_cons, List.take_succ_cons, List.any_cons,
          Bool.false_or, List.length_nil, Nat.zero_add]
        have hx' : canPurge k = false := by simpa using hp
        rw [hx']
        simp only [Bool.false_or]

theorem mem_akeys_lruEvict_of_not_purgeable (canPurge : κ → Bool) (n : Nat)
    (l : List (κ × ν)) (k : κ) (hk : k ∈ akeys l) (hp : canPurge k = false) :
    k ∈ akeys (lruEvict canPurge n l) := by
  induction n generalizing l with
  | zero => simpa [lruEvict] using hk
  | succ m ih =>
    cases l with
    | nil => simpa [lruEvict] using hk
    | cons hd t =>
      obtain ⟨k', v'⟩ := hd
      by_cases hp' : canPurge k'
      · have hne : k ≠ k' := fun h => by rw [← h] at hp'; rw [hp] at hp'; cases hp'
        simp only [lruEvict, if_pos hp']
        simpa [akeys, hne] using hk
      · simp only [lruEvict, if_neg hp']
        apply ih
        simp only [akeys, List.map_cons, List.mem_cons] at hk
        rcases hk with h | h
        · simp [akeys, h]
        · simp [akeys] at h ⊢
          exact Or.inl h

theorem mem_akeys_ainsert [DecidableEq κ] (k k' : κ) (v : ν) (l : List (κ × ν))
    (h : k ∈ akeys l) : k ∈ akeys (ainsert k' v l) := by
  induction l with
  | nil => simp [akeys] at h
  | cons hd t ih =>
    obtain ⟨k₀, v₀⟩ := hd
    by_cases hk : k₀ = k'
    · subst hk
      simpa [ainsert, akeys] using h
    · simp only [ainsert, if_neg hk, akeys, List.map_cons, List.mem_cons] at h ⊢
      rcases h with h | h
      · exact Or.inl h
      · have h2 : k ∈ akeys t := h
        exact Or.inr (by simpa [akeys] using ih h2)


theorem mem_akeys_aerase_ne [DecidableEq κ] (k k' : κ) (l : List (κ × ν))
    (h : k ∈ akeys l) (hne : k ≠ k') : k ∈ akeys (aerase k' l) := by
  induction l with
  | nil => simp [akeys] at h
  | cons hd t ih =>
    obtain ⟨k₀, v₀⟩ := hd
    simp only [akeys, List.map_cons, List.mem_cons] at h
    by_cases hk : k₀ = k'
    · subst hk
      rcases h with h | h
      · exact absurd h.symm (Ne.symm hne)
      · simpa [aerase, akeys] using h
    · simp only [aerase, if_neg hk, akeys, List.map_cons, List.mem_cons]
      rcases h with h | h
      · exact Or.inl h
      · exact Or.inr (by simpa [akeys] using ih h)

theorem alookup_isSome_of_mem_akeys [DecidableEq κ] (k : κ) (l : List (κ × ν))
    (h : k ∈ akeys l) : (alookup k l).isSome = true := by
  induction l with
  | nil => simp [akeys] at h
  | cons hd t ih =>
    obtain ⟨k₀, v₀⟩ := hd
    by_cases hk : k₀ = k
    · simp [alookup, hk]
    · simp only [alookup, if_neg hk]
      simp only [akeys, List.map_cons, List.mem_cons] at h
      rcases h with h | h
      · exact absurd h.symm hk
      · exact ih h

theorem mem_akeys_of_mem_akeys_aerase [DecidableEq κ] (k k' : κ) (l : List (κ × ν))
    (h : k ∈ akeys (aerase k' l)) : k ∈ akeys l := by
  induction l with
  | nil => simpa [aerase] using h
  | cons hd t ih =>
    obtain ⟨k₀, v₀⟩ := hd
    by_cases hk : k₀ = k'
    · subst hk
      simp only [aerase, if_pos rfl] at h
      simp only [akeys, List.map_cons, List.mem_cons]
      exact Or.inr h
    · simp only [aerase, if_neg hk, akeys, List.map_cons, List.mem_cons] at h ⊢
      rcases h with h | h
      · exact Or.inl h
      · exact Or.inr (ih h)

theorem not_mem_akeys_aerase_self [DecidableEq κ] (k : κ) (l : List (κ × ν))
    (h : (akeys l).Nodup) : k ∉ akeys (aerase k l) := by
  induction l with
  | nil => simp [aerase, akeys]
  | cons hd t ih =>
    obtain ⟨k₀, v₀⟩ := hd
    simp only [akeys, List.map_cons, List.nodup_cons] at h
    by_cases hk : k₀ = k
    · subst hk
      simp only [aerase, if_pos rfl]
      intro hc
      exact h.1 (by simpa [akeys] using hc)
    · simp only [aerase, if_neg hk, akeys, List.map_cons, List.mem_cons]
      intro hc
      rcases hc with hc | hc
      · exact hk hc.symm
      · exact ih h.2 (by simpa [akeys] using hc)

theorem alookup_aerase_self_of_nodup [DecidableEq κ] (k : κ) (l : List (κ × ν))
    (h : (akeys l).Nodup) : alookup k (aerase k l) = none :=
  alookup_eq_none_of_not_mem _ _ (not_mem_akeys_aerase_self k l h)

/-- Reduction equation for `lruSetitem` (unfolding its `let`). -/
theorem lruSetitem_eq [DecidableEq κ] (canPurge : κ → Bool) (maxsize : Nat) (k : κ) (v : ν)
    (l : List (κ × ν)) :
    lruSetitem canPurge maxsize k v l =
      if maxsize < (ainsert k v l).length then
        lruEvict canPurge ((ainsert k v l).length - maxsize) (ainsert k v l)
      else ainsert k v l := rfl

/-! ## Claim C1: the polite LRU eviction scan -/

/-- C1 counterexample: with capacity 2 and resident entries `0`
(unpurgeable) and `1` (purgeable), inserting key `2` leaves the cache at
size 3 even though a purgeable resident entry exists — the eviction loop
of `__setitem__` runs only `size - maxsize` (here 1) iterations, so after
promoting the unpurgeable key `0` it stops without ever examining key
`1`.  This refutes the claim that the cache ends at size at most `C`
whenever at least one resident entry is purgeable. -/
theorem c1_counterexample :
    2 < (lruSetitem (fun k : Nat => decide (k = 1)) 2 2 2 [(0, 0), (1, 1)]).length ∧
    ([(0, 0), (1, 1)] : List (Nat × Nat)).any (fun kv => decide (kv.1 = 1)) = true :=
  ⟨by decide, by decide⟩

/-- C1 (amended): on an insertion of a fresh key that makes the size
exceed the capacity `C`, the eviction loop examines only the
`size - C` least-recent entries in order, promoting unpurgeable ones to
most-recent; the first purgeable entry among those examined is evicted and
the scan stops, so the final size is `size - 1` if one of the examined
entries is purgeable and `size` (above `C`) otherwise — even when a
not-examined resident entry is purgeable. -/
theorem c1_theorem [DecidableEq κ] (canPurge : κ → Bool) (C : Nat) (k : κ) (v : ν)
    (l : List (κ × ν)) (hk : k ∉ akeys l) (hC : C < l.length + 1) :
    (lruSetitem canPurge C k v l).length =
      if ((l ++ [(k, v)]).take (l.length + 1 - C)).any (fun kv => canPurge kv.1)
      then l.length else l.length + 1 := by
  unfold lruSetitem
  rw [ainsert_of_not_mem k v l hk]
  have hlen : (l ++ [(k, v)]).length = l.length + 1 := by simp
  simp only [hlen]
  rw [if_pos hC, lruEvict_length, hlen]
  simp

/-- C1 witness: the amended statement evaluated at the counterexample
input (only the unpurgeable key `0` is examined, so the size stays 3). -/
theorem c1_theorem_witness :
    (2 : Nat) ∉ akeys ([(0, 0), (1, 1)] : List (Nat × Nat)) ∧ 2 < 2 + 1 ∧
    (lruSetitem (fun k : Nat => decide (k = 1)) 2 2 2 [(0, 0), (1, 1)]).length =
      if (([(0, 0), (1, 1)] ++ [(2, 2)]).take (2 + 1 - 2)).any (fun kv : Nat × Nat => decide (kv.1 = 1))
      then 2 else 2 + 1 :=
  ⟨by decide, by decide,
    c1_theorem (fun k => decide (k = 1)) 2 2 2 [(0, 0), (1, 1)] (by decide) (by decide)⟩

/-! ## Claim C5: pinned freezetags survive eviction -/

theorem purgeCache_refs (s : St) (p : Nat) (f : Bool) : (purgeCache s p f).refs = s.refs := by
  unfold purgeCache
  split <;> rfl

theorem purgeCache_cache (s : St) (p : Nat) (f : Bool) :
    (purgeCache s p f).cache =
      if ((f || purgeNoRefs s p) && (alookup p s.cache).isSome) = true
      then aerase p s.cache else s.cache := by
  unfold purgeCache
  split <;> rfl

theorem purgeFtag_cache (s : St) (p : Nat) (f : Bool) :
    (purgeFtag s p f).cache = (purgeCache s p f).cache := by
  unfold purgeFtag
  split <;> rfl

theorem purgeFtag_refs (s : St) (p : Nat) (f : Bool) :
    (purgeFtag s p f).refs =
      if (purgeNoRefs s p && (alookup p s.refs).isSome) = true
      then aerase p s.refs else s.refs := by
  unfold purgeFtag
  rw [purgeCache_refs]
  split
  · rfl
  · exact purgeCache_refs s p f

/-- C5: while `freezetag_refs[p]` records a positive open count, `p` is
never removed from the cache by the polite-LRU capacity eviction of any
insertion, nor by a fired keep-alive timer (`_purge_ftag(force=False)`),
whether the timer is its own or another path's; and once the open count
is at most 0, the next keep-alive firing for `p` evicts it from the cache
and drops its ref record. -/
theorem c5_theorem (s : St) (p : Nat) (cnt : Int)
    (href : alookup p s.refs = some cnt) (hin : p ∈ akeys s.cache)
    (hnc : (akeys s.cache).Nodup) (hnr : (akeys s.refs).Nodup) :
    (0 < cnt →
      (∀ (k : Nat) (d : FtagData),
        p ∈ akeys (lruSetitem (canPurgeFtag s.refs) FREEZETAG_CACHE_LIMIT k d s.cache)) ∧
      purgeFtag s p false = s ∧
      (∀ q, q ≠ p → p ∈ akeys (purgeFtag s q false).cache)) ∧
    (cnt ≤ 0 →
      p ∉ akeys (purgeFtag s p false).cache ∧
      alookup p (purgeFtag s p false).refs = none) := by
  constructor
  · intro hpos
    have hcp : canPurgeFtag s.refs p = false := by
      simp only [canPurgeFtag, href]
      simp only [decide_eq_false_iff_not]
      omega
    have hnr0 : purgeNoRefs s p = false := by
      simp only [purgeNoRefs, href]
      simp only [decide_eq_false_iff_not]
      omega
    refine ⟨?_, ?_, ?_⟩
    · intro k d
      rw [lruSetitem_eq]
      by_cases hlt : FREEZETAG_CACHE_LIMIT < (ainsert k d s.cache).length
      · rw [if_pos hlt]
        exact mem_akeys_lruEvict_of_not_purgeable _ _ _ _
          (mem_akeys_ainsert _ _ _ _ hin) hcp
      · rw [if_neg hlt]
        exact mem_akeys_ainsert _ _ _ _ hin
    · unfold purgeFtag purgeCache
      rw [hnr0]
      simp
    · intro q hq
      rw [purgeFtag_cache, purgeCache_cache]
      split
      · exact mem_akeys_aerase_ne _ _ _ hin (Ne.symm hq)
      · exact hin
  · intro hneg
    have hnr1 : purgeNoRefs s p = true := by
      simp only [purgeNoRefs, href]
      simpa using hneg
    have hcs : (alookup p s.cache).isSome = true := alookup_isSome_of_mem_akeys _ _ hin
    have hrs : (alookup p s.refs).isSome = true := by rw [href]; rfl
    constructor
    · rw [purgeFtag_cache, purgeCache_cache, hnr1, hcs]
      simp only [Bool.or_true, Bool.and_self, if_pos]
      exact not_mem_akeys_aerase_self p s.cache hnc
    · rw [purgeFtag_refs, hnr1, hrs]
      simp only [Bool.and_self, if_pos]
      exact alookup_aerase_self_of_nodup p s.refs hnr

/-- C5 witness: a two-state instantiation — with count 1 path 5 stays in
the cache across an insertion and a fired timer; with count 0 the fired
timer evicts it and drops the ref record. -/
theorem c5_theorem_witness :
    (5 : Nat) ∈ akeys
      (lruSetitem (canPurgeFtag [(5, 1)]) FREEZETAG_CACHE_LIMIT 6 (⟨[], []⟩ : FtagData)
        [(5, (⟨[], []⟩ : FtagData))]) ∧
    purgeFtag { initSt with cache := [(5, ⟨[], []⟩)], refs := [(5, 1)] } 5 false =
      { initSt with cache := [(5, ⟨[], []⟩)], refs := [(5, 1)] } ∧
    (5 : Nat) ∉ akeys
      (purgeFtag { initSt with cache := [(5, ⟨[], []⟩)], refs := [(5, 0)] } 5 false).cache := by
  have h1 := c5_theorem { initSt with cache := [(5, ⟨[], []⟩)], refs := [(5, 1)] } 5 1
    (by decide) (by decide) (by decide) (by decide)
  have h2 := c5_theorem { initSt with cache := [(5, ⟨[], []⟩)], refs := [(5, 0)] } 5 0
    (by decide) (by decide) (by decide) (by decide)
  refine ⟨?_, (h1.1 (by decide)).2.1, (h2.2 (by decide)).1⟩
  have h3 := (h1.1 (by decide)).1 6 ⟨[], []⟩
  simpa using h3

/-! ## Claim C4: `getattr` size and ownership for live paths -/

/-- C4: for a virtual path resolving to a live item with a matching
freezetag entry, `getattr` reports `st_size` equal to the on-disk size of
`files[0].path` plus the entry's frozen metadata length minus `files[0]`'s
stripped metadata length, and the configured uid and gid. -/
theorem c4_theorem (env : Env) (s : St) (p : List String) (id : Nat)
    (f0 : FileEntry) (rest : List FileEntry) (fe : FtagEntry)
    (hres : getItem s.tree p = .ok (some (.leaf id)))
    (hfts : (heapGet s id).freezetags.isEmpty = false)
    (hfiles : (heapGet s id).files = f0 :: rest)
    (hfind : (heapGet s id).freezetags.find? (fun e => e.path == p) = some fe) :
    getattr env s p =
      .ok { st_size := env.statSize f0.path + (fe.metadata_len : Int) - (f0.metadata_len : Int)
            st_uid := env.cfgUid
            st_gid := env.cfgGid } := by
  unfold getattr
  rw [hres]
  simp [hfts, hfiles, hfind]

/-- C4 witness: in the concrete live state, `getattr /A/x` returns size
`100 + 5 - 2` and the configured uid 42 and gid 43. -/
theorem c4_theorem_witness :
    getItem exLive.tree ["/", "A", "x"] = .ok (some (.leaf 0)) ∧
    getattr cenv exLive ["/", "A", "x"] = .ok ⟨100 + 5 - 2, 42, 43⟩ :=
  ⟨rfl,
    c4_theorem cenv exLive ["/", "A", "x"] 0 ⟨3, 2⟩ [] ⟨0, ["/", "A", "x"], 5⟩
      rfl rfl rfl rfl⟩

/-! ## Claim C2: `getattr`/`open` failure modes -/

/-- C2 counterexample: after adding freezetag 0 (mounting `/A/x` for
checksum 7) with no content file present, the path `/A/x` resolves to a
`FrozenItem` that is not live (`files` is empty); `getattr` raises
`ENOENT` as claimed, but `open` evaluates `item.files[0]` before any
liveness check and raises `IndexError`, not `ENOENT`.  This refutes the
claim that `open` fails with `ENOENT` — and with no other kind of
exception — whenever the path resolves to a non-live item. -/
theorem c2_counterexample :
    getItem (runTrace cenv initSt [.created 0]).tree ["/", "A", "x"] = .ok (some (.leaf 0)) ∧
    (heapGet (runTrace cenv initSt [.created 0]) 0).files = [] ∧
    (heapGet (runTrace cenv initSt [.created 0]) 0).freezetags ≠ [] ∧
    (fsOpen cenv (runTrace cenv initSt [.created 0]) ["/", "A", "x"]).2 = .error .indexError ∧
    PyErr.indexError ≠ PyErr.enoent :=
  ⟨rfl, rfl, by decide, rfl, by decide⟩

/-- C2 (amended): whenever the component walk of `_get_item` returns no
node, both `getattr` and `open` fail with `ENOENT`; when it raises (the
walk descends through a file leaf) both propagate that `TypeError`; when
the path resolves to a `FrozenItem` leaf: a non-live item makes `getattr`
fail with `ENOENT`, but `open` raises `IndexError` whenever the files
collection is empty; when the item has files but no freezetag entry whose
`virtual_path` equals the path, both fail with `ENOENT`. -/
theorem c2_theorem (env : Env) (s : St) (p : List String) :
    (getItem s.tree p = .ok none →
      getattr env s p = .error .enoent ∧ (fsOpen env s p).2 = .error .enoent) ∧
    (∀ er, getItem s.tree p = .error er →
      getattr env s p = .error er ∧ (fsOpen env s p).2 = .error er) ∧
    (∀ id, getItem s.tree p = .ok (some (.leaf id)) →
      (((heapGet s id).freezetags.isEmpty || (heapGet s id).files.isEmpty) = true →
        getattr env s p = .error .enoent) ∧
      ((heapGet s id).files = [] → (fsOpen env s p).2 = .error .indexError) ∧
      (∀ f0 rest, (heapGet s id).files = f0 :: rest →
        (heapGet s id).freezetags.find? (fun e => e.path == p) = none →
        getattr env s p = .error .enoent ∧ (fsOpen env s p).2 = .error .enoent)) := by
  refine ⟨?_, ?_, ?_⟩
  · intro h
    unfold getattr fsOpen
    rw [h]
    exact ⟨rfl, rfl⟩
  · intro er h
    unfold getattr fsOpen
    rw [h]
    exact ⟨rfl, rfl⟩
  · intro id h
    refine ⟨?_, ?_, ?_⟩
    · intro hdead
      unfold getattr
      rw [h]
      simp [hdead]
    · intro hempty
      unfold fsOpen
      rw [h]
      simp [hempty]
    · intro f0 rest hfiles hfind
      have hne : (heapGet s id).files.isEmpty = false := by simp [hfiles]
      constructor
      · unfold getattr
        rw [h]
        simp [hne, hfind]
      · unfold fsOpen
        rw [h]
        simp [hfiles, hfind]

/-- C2 witness: the amended statement evaluated on the concrete live
state — at the absent path `/A/y` both operations return `ENOENT`. -/
theorem c2_theorem_witness :
    getItem exLive.tree ["/", "A", "y"] = .ok none ∧
    getattr cenv exLive ["/", "A", "y"] = .error .enoent ∧
    (fsOpen cenv exLive ["/", "A", "y"]).2 = .error .enoent := by
  have h := (c2_theorem cenv exLive ["/", "A", "y"]).1 rfl
  exact ⟨rfl, h.1, h.2⟩

/-! ## Frame lemmas for the cache, scheduling and mounting operations -/

theorem cacheGetFtag_frame (env : Env) (s : St) (p : Nat) :
    ((cacheGetFtag env s p).2).heap = s.heap ∧
    ((cacheGetFtag env s p).2).tree = s.tree ∧
    ((cacheGetFtag env s p).2).checksum_map = s.checksum_map ∧
    ((cacheGetFtag env s p).2).abs_path_map = s.abs_path_map ∧
    ((cacheGetFtag env s p).2).freezetag_map = s.freezetag_map ∧
    ((cacheGetFtag env s p).2).inactive = s.inactive ∧
    ((cacheGetFtag env s p).2).refs = s.refs := by
  unfold cacheGetFtag
  cases h : alookup p s.cache with
  | some d => exact ⟨rfl, rfl, rfl, rfl, rfl, rfl, rfl⟩
  | none =>
      cases h2 : env.parseFtag p with
      | none => exact ⟨rfl, rfl, rfl, rfl, rfl, rfl, rfl⟩
      | some d => exact ⟨rfl, rfl, rfl, rfl, rfl, rfl, rfl⟩

theorem schedulePurge_frame (s : St) (p : Nat) :
    (schedulePurge s p).heap = s.heap ∧
    (schedulePurge s p).tree = s.tree ∧
    (schedulePurge s p).checksum_map = s.checksum_map ∧
    (schedulePurge s p).abs_path_map = s.abs_path_map ∧
    (schedulePurge s p).freezetag_map = s.freezetag_map ∧
    (schedulePurge s p).inactive = s.inactive ∧
    (schedulePurge s p).cache = s.cache := by
  unfold schedulePurge
  split <;> exact ⟨rfl, rfl, rfl, rfl, rfl, rfl, rfl⟩

theorem findOrCreateF_inactive (s : St) (c : Nat) (e : FtagEntry) :
    ((findOrCreateF s c e).2).inactive = s.inactive := by
  unfold findOrCreateF
  cases h : alookup c s.checksum_map <;> rfl

theorem addFreezetagEntry_inactive (s : St) (c : Nat) (e : FtagEntry) :
    ((addFreezetagEntry s c e).1).inactive = s.inactive := by
  unfold addFreezetagEntry
  rcases hfc : findOrCreateF s c e with ⟨id, s2⟩
  have h2 : s2.inactive = s.inactive := by
    have h3 := findOrCreateF_inactive s c e
    rw [hfc] at h3
    exact h3
  simp only [hfc]
  split
  · exact h2
  · split
    · exact h2
    · split <;> exact h2

theorem addFtagFiles_inactive (p : Nat) (root : List String) (fs : List FtagFile) (s : St) :
    ((addFtagFiles s p root fs).1).inactive = s.inactive := by
  induction fs generalizing s with
  | nil => rfl
  | cons f fs ih =>
      unfold addFtagFiles
      cases h : addFreezetagEntry s f.checksum ⟨p, root ++ f.path, f.metadata_len⟩ with
      | mk s1 err =>
          have h1 : s1.inactive = s.inactive := by
            have := addFreezetagEntry_inactive s f.checksum ⟨p, root ++ f.path, f.metadata_len⟩
            rw [h] at this
            exact this
          cases err with
          | some er => simpa using h1
          | none =>
              simp only []
              split <;> rw [ih] <;> simpa using h1

/-- `_add_ftag` only ever appends to `inactive_freezetags`. -/
theorem addFtag_inactive_extend (env : Env) (s : St) (p : Nat) :
    ∃ tail, ((addFtag env s p).1).inactive = s.inactive ++ tail := by
  unfold addFtag
  cases hc : cacheGetFtag env s p with
  | mk v s1 =>
      have h1 : s1.inactive = s.inactive := by
        have := (cacheGetFtag_frame env s p).2.2.2.2.2.1
        rw [hc] at this
        exact this
      cases v with
      | none => exact ⟨[], by simp [h1]⟩
      | some d =>
          have h2 : (schedulePurge s1 p).inactive = s.inactive := by
            rw [(schedulePurge_frame s1 p).2.2.2.2.2.1, h1]
          simp only []
          split
          · exact ⟨[], by simp [h2]⟩
          · split
            · exact ⟨[("/" :: d.root, p)], by simp [h2]⟩
            · rename_i r hr
              refine ⟨[], ?_⟩
              rw [addFtagFiles_inactive]
              simpa using h2

/-! ## Claim C6: root collisions defer the freezetag -/

/-- C6 counterexample: `_add_ftag` checks the already-mounted condition
with Python truthiness, so a root that resolves to an *empty* directory
node is treated as free.  From the initial state (whose `path_map` is
`{'/': {}}`), a freezetag whose `root` is the empty string has
`virtual_root = '/'`, which resolves to the empty root directory — an
existing node — yet the freezetag is mounted: `freezetag_map` gains the
entry and nothing is appended to `inactive_freezetags`.  This refutes the
claim that a freezetag whose virtual root resolves to any existing node
is never mounted and leaves the maps unchanged. -/
theorem c6_counterexample :
    getItem initSt.tree ["/"] = .ok (some (.dir [])) ∧
    (addFtag cenv initSt 1).2 = none ∧
    alookup 1 ((addFtag cenv initSt 1).1).freezetag_map = some (["/"], [9]) ∧
    ((addFtag cenv initSt 1).1).inactive = [] :=
  ⟨rfl, rfl, rfl, rfl⟩

/-- C6 (amended): when the computed virtual root resolves to a *truthy*
node (a `FrozenItem` leaf or a non-empty directory), the freezetag is not
mounted: `(virtual_root, source_path)` is appended to
`inactive_freezetags` and the path tree, `checksum_map`, `freezetag_map`
(as well as the heap and `abs_path_map`) are left unchanged.  A root
resolving to an empty directory (falsy) is mounted instead. -/
theorem c6_theorem (env : Env) (s : St) (p : Nat) (d : FtagData) (r : Option PNode)
    (hload : (cacheGetFtag env s p).1 = some d)
    (hres : getItem s.tree ("/" :: d.root) = .ok r)
    (htruthy : nodeTruthy r = true) :
    (addFtag env s p).2 = none ∧
    ((addFtag env s p).1).tree = s.tree ∧
    ((addFtag env s p).1).checksum_map = s.checksum_map ∧
    ((addFtag env s p).1).freezetag_map = s.freezetag_map ∧
    ((addFtag env s p).1).heap = s.heap ∧
    ((addFtag env s p).1).abs_path_map = s.abs_path_map ∧
    ((addFtag env s p).1).inactive = s.inactive ++ [("/" :: d.root, p)] := by
  have hcf := cacheGetFtag_frame env s p
  unfold addFtag
  cases hc : cacheGetFtag env s p with
  | mk v s1 =>
      rw [hc] at hcf hload
      subst hload
      have hsf := schedulePurge_frame s1 p
      have htree : (schedulePurge s1 p).tree = s.tree := by rw [hsf.2.1, hcf.2.1]
      simp only []
      rw [htree, hres]
      simp only []
      rw [if_pos htruthy]
      refine ⟨rfl, ?_, ?_, ?_, ?_, ?_, ?_⟩
      · rfl
      · exact hsf.2.2.1.trans hcf.2.2.1
      · exact hsf.2.2.2.2.1.trans hcf.2.2.2.2.1
      · exact hsf.1.trans hcf.1
      · exact hsf.2.2.2.1.trans hcf.2.2.2.1
      · rw [hsf.2.2.2.2.2.1]
        rw [show s1.inactive = s.inactive from hcf.2.2.2.2.2.1]

/-- C6 witness: adding the root-`''` freezetag on the live state (whose
root directory is non-empty, hence truthy) defers it and leaves the maps
unchanged. -/
theorem c6_theorem_witness :
    (addFtag cenv exLive 1).2 = none ∧
    ((addFtag cenv exLive 1).1).freezetag_map = exLive.freezetag_map ∧
    ((addFtag cenv exLive 1).1).tree = exLive.tree ∧
    ((addFtag cenv exLive 1).1).inactive = [(["/"], 1)] := by
  have h := c6_theorem cenv exLive 1 ⟨[], [⟨["x"], 9, 3⟩]⟩
    (some (.dir [("A", .dir [("x", .leaf 0)])])) rfl rfl rfl
  refine ⟨h.1, h.2.2.2.1, h.2.1, ?_⟩
  rw [h.2.2.2.2.2.2]
  rfl

/-! ## Claim C7: promotion of inactive freezetags -/

theorem findRemoveFirst_split (pred : α → Bool) (pre : List α) (t : α) (post : List α)
    (hpre : ∀ u ∈ pre, pred u = false) (ht : pred t = true) :
    findRemoveFirst pred (pre ++ t :: post) = some (t, pre ++ post) := by
  induction pre with
  | nil => simp [findRemoveFirst, ht]
  | cons x xs ih =>
      have hx : pred x = false := hpre x (by simp)
      have ih2 := ih (fun u hu => hpre u (by simp [hu]))
      simp [findRemoveFirst, hx, ih2]

/-- C7: on removal of an active freezetag with virtual root `r`, the
promotion loop removes exactly the first inactive entry whose virtual
root equals `r` and re-adds it via `_add_ftag`; every other inactive
entry stays queued in order (`_add_ftag` can only append to the queue). -/
theorem c7_theorem (env : Env) (s : St) (root : List String)
    (pre : List (List String × Nat)) (t : List String × Nat) (post : List (List String × Nat))
    (hsplit : s.inactive = pre ++ t :: post)
    (hroot : t.1 = root)
    (hpre : ∀ u ∈ pre, u.1 ≠ root) :
    promoteInactive env s root = addFtag env { s with inactive := pre ++ post } t.2 ∧
    ∃ tail, ((promoteInactive env s root).1).inactive = (pre ++ post) ++ tail := by
  have hfrf : findRemoveFirst (fun u => u.1 == root) s.inactive = some (t, pre ++ post) := by
    rw [hsplit]
    apply findRemoveFirst_split
    · intro u hu
      simpa using hpre u hu
    · simpa using hroot
  have hmain : promoteInactive env s root = addFtag env { s with inactive := pre ++ post } t.2 := by
    unfold promoteInactive
    rw [hfrf]
  refine ⟨hmain, ?_⟩
  rw [hmain]
  obtain ⟨tail, htail⟩ := addFtag_inactive_extend env { s with inactive := pre ++ post } t.2
  exact ⟨tail, by simpa using htail⟩

/-- C7 witness: with two queued inactive entries, promoting root `/A`
removes exactly the second (the first whose root matches) and re-adds it
via `_add_ftag`, keeping the other entry queued. -/
theorem c7_theorem_witness :
    promoteInactive cenv { initSt with inactive := [(["/", "B"], 9), (["/", "A"], 1)] } ["/", "A"] =
      addFtag cenv { initSt with inactive := [(["/", "B"], 9)] } 1 ∧
    ∃ tail,
      ((promoteInactive cenv { initSt with inactive := [(["/", "B"], 9), (["/", "A"], 1)] }
          ["/", "A"]).1).inactive = [(["/", "B"], 9)] ++ tail := by
  have h := c7_theorem cenv { initSt with inactive := [(["/", "B"], 9), (["/", "A"], 1)] }
    ["/", "A"] [(["/", "B"], 9)] (["/", "A"], 1) [] rfl rfl (by decide)
  exact ⟨h.1, by simpa using h.2⟩

/-! ## Claim C8: content-file rename -/

theorem list_set_oob (l : List α) (i : Nat) (a : α) (h : l.length ≤ i) : l.set i a = l := by
  induction l generalizing i with
  | nil => rfl
  | cons x xs ih =>
      cases i with
      | zero => simp at h
      | succ n => simpa using ih n (by simpa using h)

theorem getD_set_self (l : List α) (i : Nat) (a d : α) (h : i < l.length) :
    (l.set i a).getD i d = a := by
  induction l generalizing i with
  | nil => simp at h
  | cons x xs ih =>
      cases i with
      | zero => rfl
      | succ n => simpa using ih n (by simpa using h)

/-- C8: renaming a tracked content file from `src` to `dst` repoints
`absolute_path_map` from `src` to `dst` (same item), rewrites every file
entry of that item whose path was `src` to `dst`, leaves the path tree,
`checksum_map` and `freezetag_map` unchanged (so every virtual path still
resolves identically), and raises nothing. -/
theorem heapGet_heapSet_lt (s : St) (id : Nat) (it : FrozenItem) (h : id < s.heap.length) :
    heapGet (heapSet s id it) id = it := by
  unfold heapGet heapSet
  exact getD_set_self _ _ _ _ h

theorem heapSet_oob (s : St) (id : Nat) (it : FrozenItem) (h : s.heap.length ≤ id) :
    heapSet s id it = s := by
  unfold heapSet
  rw [list_set_oob _ _ _ h]

theorem getD_oob (l : List α) (i : Nat) (d : α) (h : l.length ≤ i) : l.getD i d = d := by
  induction l generalizing i with
  | nil => cases i <;> rfl
  | cons x xs ih =>
      cases i with
      | zero => simp at h
      | succ n => simpa [List.getD] using ih n (by simpa using h)

theorem heapGet_oob (s : St) (id : Nat) (h : s.heap.length ≤ id) :
    heapGet s id = ⟨0, [], []⟩ := by
  unfold heapGet
  exact getD_oob _ _ _ h

theorem c8_theorem (env : Env) (s : St) (src dst : Nat) (id : Nat)
    (hdir : env.isDir dst = false) (hftag : env.isFtag src = false)
    (hne : src ≠ dst) (habs : alookup src s.abs_path_map = some id)
    (hnd : (akeys s.abs_path_map).Nodup) :
    (onMoved env s src dst).2 = none ∧
    alookup dst ((onMoved env s src dst).1).abs_path_map = some id ∧
    alookup src ((onMoved env s src dst).1).abs_path_map = none ∧
    ((onMoved env s src dst).1).tree = s.tree ∧
    ((onMoved env s src dst).1).checksum_map = s.checksum_map ∧
    ((onMoved env s src dst).1).freezetag_map = s.freezetag_map ∧
    (heapGet ((onMoved env s src dst).1) id).files =
      (heapGet s id).files.map (fun e => if e.path == src then { e with path := dst } else e) ∧
    (heapGet ((onMoved env s src dst).1) id).checksum = (heapGet s id).checksum ∧
    (heapGet ((onMoved env s src dst).1) id).freezetags = (heapGet s id).freezetags ∧
    (∀ q, getItem ((onMoved env s src dst).1).tree q = getItem s.tree q) := by
  have hred : onMoved env s src dst =
      (heapSet { s with abs_path_map := ainsert dst id (aerase src s.abs_path_map) } id
        { heapGet s id with
            files := (heapGet s id).files.map
              (fun e => if e.path == src then { e with path := dst } else e) }, none) := by
    unfold onMoved
    rw [hdir, hftag]
    simp only [Bool.false_eq_true, if_false, habs]
    rfl
  have hs1 : (onMoved env s src dst).1 =
      heapSet { s with abs_path_map := ainsert dst id (aerase src s.abs_path_map) } id
        { heapGet s id with
            files := (heapGet s id).files.map
              (fun e => if e.path == src then { e with path := dst } else e) } := by
    rw [hred]
  have hs2 : (onMoved env s src dst).2 = none := by rw [hred]
  refine ⟨hs2, ?_, ?_, ?_, ?_, ?_, ?_, ?_, ?_, ?_⟩
  · rw [hs1]
    exact alookup_ainsert_self dst id (aerase src s.abs_path_map)
  · rw [hs1]
    show alookup src (ainsert dst id (aerase src s.abs_path_map)) = none
    rw [alookup_ainsert_ne dst src id _ hne]
    exact alookup_aerase_self_of_nodup src s.abs_path_map hnd
  · rw [hs1]
    rfl
  · rw [hs1]
    rfl
  · rw [hs1]
    rfl
  · rw [hs1]
    by_cases hid : id < s.heap.length
    · rw [heapGet_heapSet_lt _ _ _ (by simpa using hid)]
    · rw [heapSet_oob _ _ _ (by simpa using Nat.le_of_not_lt hid)]
      rw [show heapGet { s with abs_path_map := ainsert dst id (aerase src s.abs_path_map) } id
            = heapGet s id from rfl]
      rw [heapGet_oob s id (Nat.le_of_not_lt hid)]
      rfl
  · rw [hs1]
    by_cases hid : id < s.heap.length
    · rw [heapGet_heapSet_lt _ _ _ (by simpa using hid)]
    · rw [heapSet_oob _ _ _ (by simpa using Nat.le_of_not_lt hid)]
      rfl
  · rw [hs1]
    by_cases hid : id < s.heap.length
    · rw [heapGet_heapSet_lt _ _ _ (by simpa using hid)]
    · rw [heapSet_oob _ _ _ (by simpa using Nat.le_of_not_lt hid)]
      rfl
  · intro q
    rw [hs1]
    rfl

/-- C8 witness: renaming content file 3 to 4 in the live state keeps
`/A/x` resolving and repoints `abs_path_map` to 4 only. -/
theorem c8_theorem_witness :
    (onMoved cenv exLive 3 4).2 = none ∧
    alookup 4 ((onMoved cenv exLive 3 4).1).abs_path_map = some 0 ∧
    alookup 3 ((onMoved cenv exLive 3 4).1).abs_path_map = none ∧
    ((onMoved cenv exLive 3 4).1).tree = exLive.tree ∧
    (heapGet ((onMoved cenv exLive 3 4).1) 0).files = [⟨4, 2⟩] := by
  have h := c8_theorem cenv exLive 3 4 0 rfl rfl (by decide) rfl (by decide)
  refine ⟨h.1, h.2.1, h.2.2.1, h.2.2.2.1, ?_⟩
  rw [h.2.2.2.2.2.2.1]
  rfl

/-! ## Claim C9: watcher handlers and exceptions -/

/-- C9 counterexample: `on_moved` of a content path that is not in
`abs_path_map` (for instance any file that previously failed to stat or
parse and was therefore never indexed) executes
`self.abs_path_map[src]` with no handler and raises `KeyError` out of the
watcher callback instead of returning normally.  This refutes the claim
that every failure inside a handler is logged and swallowed. -/
theorem c9_counterexample :
    (onMoved cenv initSt 5 6).2 = some .keyError :=
  rfl

/-- C9 (amended): the failure handling inside the handlers is selective:
stat/parse/strip failures of a content file and parse failures of a
freezetag are logged and swallowed (the handler returns normally, state
unchanged), but `on_moved` of an untracked content path propagates
`KeyError`. -/
theorem c9_theorem (env : Env) (s : St) (p src dst : Nat) :
    (env.isDir p = false → env.isFtag p = false →
      onCreated env s p = (addFile env s p, none)) ∧
    (env.fileInfo p = none → addFile env s p = s) ∧
    (alookup p s.cache = none → env.parseFtag p = none → addFtag env s p = (s, none)) ∧
    (env.isDir dst = false → env.isFtag src = false →
      alookup src s.abs_path_map = none → onMoved env s src dst = (s, some .keyError)) := by
  refine ⟨?_, ?_, ?_, ?_⟩
  · intro h1 h2
    unfold onCreated
    rw [h1, h2]
    simp
  · intro h
    unfold addFile
    rw [h]
  · intro h1 h2
    unfold addFtag cacheGetFtag
    rw [h1, h2]
  · intro h1 h2 h3
    unfold onMoved
    rw [h1, h2, h3]
    simp

/-- C9 witness: on the initial state, creating the unparsable content
file 5 returns normally with the state unchanged, while moving it raises
`KeyError`. -/
theorem c9_theorem_witness :
    onCreated cenv initSt 5 = (addFile cenv initSt 5, none) ∧
    addFile cenv initSt 5 = initSt ∧
    onMoved cenv initSt 5 6 = (initSt, some .keyError) := by
  have h := c9_theorem cenv initSt 5 5 6
  exact ⟨h.1 rfl rfl, h.2.1 rfl, h.2.2.2 rfl rfl rfl⟩

/-! ## Claim C10: pruning can empty `path_map` entirely -/

theorem pruneNode_mkChain (id : Nat) : ∀ ps : List String, ps ≠ [] →
    pruneNode (mkChain id ps) ps = .ok ([], true)
  | [], h => absurd rfl h
  | [p], _ => by simp [mkChain, pruneNode, alookup, aerase]
  | p :: q :: ps, _ => by
      have ih := pruneNode_mkChain id (q :: ps) (by simp)
      simp [mkChain, pruneNode, alookup, ih, aerase]

theorem treeInsert_nil (id : Nat) : ∀ ps : List String, ps ≠ [] →
    treeInsert id [] ps = .ok (mkChain id ps)
  | [], h => absurd rfl h
  | [p], _ => by simp [treeInsert, mkChain, ainsert]
  | p :: q :: ps, _ => by
      have ih := treeInsert_nil id (q :: ps) (by simp)
      simp [treeInsert, mkChain, alookup, ih, ainsert]

theorem getItem_mkChain (id : Nat) : ∀ ps : List String, ps ≠ [] →
    getItem (mkChain id ps) ps = .ok (some (.leaf id))
  | [], h => absurd rfl h
  | [p], _ => by simp [getItem, mkChain, nodeGet, alookup]
  | p :: q :: ps, _ => by
      have ih := getItem_mkChain id (q :: ps) (by simp)
      simp only [getItem, mkChain, nodeGet, alookup, if_pos rfl] at ih ⊢
      exact ih

/-- C10: when the last freezetag entry of an item is gone and its virtual
path is the only chain in the tree, `_delete_if_dangling` prunes every
ancestor including the `'/'` key, leaving `path_map` empty; from then on
`_get_item` returns `None` for every path (the root `'/'` included) and
`getattr` raises `ENOENT` for every path, until a freezetag entry is
added again, which rebuilds the chain and makes the path resolve. -/
theorem c10_theorem (env : Env) (c : Nat) (ps : List String) (q : String) (qs : List String)
    (hps : ps ≠ []) :
    (deleteIfDangling
      { initSt with heap := [⟨c, [], []⟩], tree := mkChain 0 ps, checksum_map := [(c, 0)] }
      0 (some ps) none).2 = none ∧
    ((deleteIfDangling
      { initSt with heap := [⟨c, [], []⟩], tree := mkChain 0 ps, checksum_map := [(c, 0)] }
      0 (some ps) none).1).tree = [] ∧
    ((deleteIfDangling
      { initSt with heap := [⟨c, [], []⟩], tree := mkChain 0 ps, checksum_map := [(c, 0)] }
      0 (some ps) none).1).checksum_map = [] ∧
    getItem ([] : List (String × PNode)) (q :: qs) = .ok none ∧
    getattr env { initSt with tree := [] } (q :: qs) = .error .enoent ∧
    treeInsert 0 [] ps = .ok (mkChain 0 ps) ∧
    getItem (mkChain 0 ps) ps = .ok (some (.leaf 0)) := by
  have hprune := pruneNode_mkChain 0 ps hps
  refine ⟨?_, ?_, ?_, rfl, rfl, treeInsert_nil 0 ps hps, getItem_mkChain 0 ps hps⟩
  · simp [deleteIfDangling, dIDcm, dIDabs, heapGet, aerase, hprune]
  · simp [deleteIfDangling, dIDcm, dIDabs, heapGet, aerase, hprune]
  · simp [deleteIfDangling, dIDcm, dIDabs, heapGet, aerase, hprune]

/-- C10 witness: the concrete chain `/A/x` — pruning empties the tree and
`getattr '/'` returns `ENOENT`. -/
theorem c10_theorem_witness :
    ((deleteIfDangling
      { initSt with heap := [⟨7, [], []⟩], tree := mkChain 0 ["/", "A", "x"], checksum_map := [(7, 0)] }
      0 (some ["/", "A", "x"]) none).1).tree = [] ∧
    getattr cenv { initSt with tree := [] } ["/"] = .error .enoent := by
  have h := c10_theorem cenv 7 ["/", "A", "x"] "/" [] (by decide)
  exact ⟨h.2.1, h.2.2.2.2.1⟩

/-! ## Claim C3: list and association-list support lemmas -/

theorem get?_set_self (l : List α) (i : Nat) (a : α) (h : i < l.length) :
    (l.set i a).get? i = some a := by
  induction l generalizing i with
  | nil => simp at h
  | cons x xs ih =>
      cases i with
      | zero => rfl
      | succ n => simpa using ih n (by simpa using h)

theorem get?_set_ne (l : List α) (i j : Nat) (a : α) (h : i ≠ j) :
    (l.set i a).get? j = l.get? j := by
  induction l generalizing i j with
  | nil => rfl
  | cons x xs ih =>
      cases i with
      | zero =>
          cases j with
          | zero => exact absurd rfl h
          | succ m => rfl
      | succ n =>
          cases j with
          | zero => rfl
          | succ m => simpa using ih n m (fun hc => h (by rw [hc]))

theorem get?_append_lt (l l' : List α) (j : Nat) (h : j < l.length) :
    (l ++ l').get? j = l.get? j := by
  induction l generalizing j with
  | nil => simp at h
  | cons x xs ih =>
      cases j with
      | zero => rfl
      | succ n => simpa using ih n (by simpa using h)

theorem get?_append_length (l : List α) (a : α) :
    (l ++ [a]).get? l.length = some a := by
  induction l with
  | nil => rfl
  | cons x xs ih => simpa using ih

theorem lt_length_of_get?_some (l : List α) (i : Nat) (a : α) (h : l.get? i = some a) :
    i < l.length := by
  induction l generalizing i with
  | nil => simp [List.get?] at h
  | cons x xs ih =>
      cases i with
      | zero => simp
      | succ n =>
          have := ih n (by simpa using h)
          simpa using Nat.succ_lt_succ this

theorem alookup_some_mem [DecidableEq κ] (k : κ) (v : ν) (l : List (κ × ν))
    (h : alookup k l = some v) : (k, v) ∈ l := by
  induction l with
  | nil => simp [alookup] at h
  | cons hd tl ih =>
      obtain ⟨k₀, v₀⟩ := hd
      simp only [alookup] at h
      by_cases hk : k₀ = k
      · rw [if_pos hk] at h
        subst hk
        cases h
        simp
      · rw [if_neg hk] at h
        simp [ih h]

theorem mem_of_mem_aerase [DecidableEq κ] (k : κ) (pr : κ × ν) (l : List (κ × ν))
    (h : pr ∈ aerase k l) : pr ∈ l := by
  induction l with
  | nil => simpa [aerase] using h
  | cons hd tl ih =>
      obtain ⟨k₀, v₀⟩ := hd
      by_cases hk : k₀ = k
      · simp only [aerase, if_pos hk] at h
        simp [h]
      · simp only [aerase, if_neg hk, List.mem_cons] at h
        rcases h with h | h
        · simp [h]
        · simp [ih h]

theorem mem_akeys_of_pair (pr : κ × ν) (l : List (κ × ν)) (h : pr ∈ l) :
    pr.1 ∈ akeys l :=
  List.mem_map_of_mem Prod.fst h

theorem akeys_aerase_sublist [DecidableEq κ] (k : κ) (l : List (κ × ν)) :
    (akeys (aerase k l)).Sublist (akeys l) := by
  induction l with
  | nil => simp [aerase]
  | cons hd tl ih =>
      obtain ⟨k₀, v₀⟩ := hd
      by_cases hk : k₀ = k
      · simp only [aerase, if_pos hk, akeys, List.map_cons]
        exact List.sublist_cons_of_sublist _ (List.Sublist.refl _)
      · simp only [aerase, if_neg hk, akeys, List.map_cons]
        exact List.Sublist.cons₂ _ ih

theorem nodup_akeys_aerase [DecidableEq κ] (k : κ) (l : List (κ × ν))
    (h : (akeys l).Nodup) : (akeys (aerase k l)).Nodup :=
  h.sublist (akeys_aerase_sublist k l)

theorem pair_not_mem_aerase_self [DecidableEq κ] (k : κ) (v : ν) (l : List (κ × ν))
    (h : (akeys l).Nodup) : (k, v) ∉ aerase k l := by
  intro hc
  exact not_mem_akeys_aerase_self k l h (mem_akeys_of_pair _ _ hc)

theorem not_mem_akeys_of_alookup_none [DecidableEq κ] (k : κ) (l : List (κ × ν))
    (h : alookup k l = none) : k ∉ akeys l := by
  intro hc
  have := alookup_isSome_of_mem_akeys k l hc
  rw [h] at this
  cases this

theorem nodup_akeys_ainsert_fresh [DecidableEq κ] (k : κ) (v : ν) (l : List (κ × ν))
    (hn : (akeys l).Nodup) (h : alookup k l = none) :
    (akeys (ainsert k v l)).Nodup := by
  have hk := not_mem_akeys_of_alookup_none k l h
  rw [ainsert_of_not_mem k v l hk]
  simp only [akeys, List.map_append, List.map_cons, List.map_nil]
  rw [List.nodup_append]
  refine ⟨hn, List.nodup_singleton k, ?_⟩
  intro a ha hb
  simp only [List.mem_singleton] at hb
  subst hb
  exact hk (by simpa [akeys] using ha)

theorem alookup_of_mem_nodup [DecidableEq κ] (k : κ) (v : ν) (l : List (κ × ν))
    (hm : (k, v) ∈ l) (hn : (akeys l).Nodup) : alookup k l = some v := by
  induction l with
  | nil => simp at hm
  | cons hd tl ih =>
      obtain ⟨k₀, v₀⟩ := hd
      simp only [akeys, List.map_cons, List.nodup_cons] at hn
      simp only [List.mem_cons] at hm
      rcases hm with hm | hm
      · cases hm
        simp [alookup]
      · have hk : k₀ ≠ k := by
          intro hc
          subst hc
          exact hn.1 (by simpa [akeys] using mem_akeys_of_pair _ _ hm)
        simp only [alookup, if_neg hk]
        exact ih hm hn.2

/-! ## Claim C3: core invariant-preservation lemmas -/

/-- Registering a fresh live item at a fresh checksum preserves the
invariant. -/
theorem inv_append (h : List FrozenItem) (cm : List (Nat × Nat)) (c : Nat)
    (fts : List FtagEntry) (fls : List FileEntry)
    (hInv : checksumInv h cm) (hnew : alookup c cm = none)
    (hlive : itemLive ⟨c, fts, fls⟩) :
    checksumInv (h ++ [⟨c, fts, fls⟩]) (ainsert c h.length cm) := by
  obtain ⟨h1, h2, h3⟩ := hInv
  have hfresh := not_mem_akeys_of_alookup_none c cm hnew
  refine ⟨?_, ?_, nodup_akeys_ainsert_fresh c h.length cm h3 hnew⟩
  · intro pr hpr
    rw [ainsert_of_not_mem c h.length cm hfresh] at hpr
    rw [List.mem_append] at hpr
    rcases hpr with hpr | hpr
    · obtain ⟨it, hit, hc, hl⟩ := h1 pr hpr
      exact ⟨it, by rw [get?_append_lt _ _ _ (lt_length_of_get?_some _ _ _ hit)]; exact hit,
        hc, hl⟩
    · simp only [List.mem_singleton] at hpr
      subst hpr
      exact ⟨⟨c, fts, fls⟩, get?_append_length h _, rfl, hlive⟩
  · intro id it hit hl
    by_cases hid : id < h.length
    · rw [get?_append_lt _ _ _ hid] at hit
      have := h2 id it hit hl
      rw [alookup_ainsert_ne]
      · exact this
      · intro hc
        rw [hc] at this
        rw [hnew] at this
        cases this
    · have hle : h.length ≤ id := Nat.le_of_not_lt hid
      have hlen : id < (h ++ [(⟨c, fts, fls⟩ : FrozenItem)]).length :=
        lt_length_of_get?_some _ _ _ hit
      simp only [List.length_append, List.length_cons, List.length_nil] at hlen
      have hideq : id = h.length := by omega
      subst hideq
      rw [get?_append_length] at hit
      cases hit
      rw [alookup_ainsert_self]

/-- Overwriting a registered item with a live item of the same checksum
preserves the invariant. -/
theorem inv_set (h : List FrozenItem) (cm : List (Nat × Nat)) (id : Nat)
    (it it' : FrozenItem)
    (hInv : checksumInv h cm) (hid : h.get? id = some it)
    (hck : it'.checksum = it.checksum) (hlive : itemLive it')
    (hreg : alookup it.checksum cm = some id) :
    checksumInv (h.set id it') cm := by
  obtain ⟨h1, h2, h3⟩ := hInv
  refine ⟨?_, ?_, h3⟩
  · intro pr hpr
    obtain ⟨it0, hit0, hc0, hl0⟩ := h1 pr hpr
    by_cases hpr2 : pr.2 = id
    · rw [hpr2] at hit0
      rw [hid] at hit0
      cases hit0
      refine ⟨it', ?_, by rw [hck, hc0], hlive⟩
      rw [hpr2]
      exact get?_set_self _ _ _ (lt_length_of_get?_some _ _ _ hid)
    · exact ⟨it0, by rw [get?_set_ne _ _ _ _ (fun hc => hpr2 hc.symm)]; exact hit0, hc0, hl0⟩
  · intro id' it'' hit'' hl''
    by_cases hid' : id' = id
    · subst hid'
      rw [get?_set_self _ _ _ (lt_length_of_get?_some _ _ _ hid)] at hit''
      cases hit''
      rw [hck]
      exact hreg
    · rw [get?_set_ne _ _ _ _ (fun hc => hid' hc.symm)] at hit''
      exact h2 id' it'' hit'' hl''

/-- Overwriting an item with one of the same checksum and the same
liveness status preserves the invariant (no registration needed: a dead
item has no `checksum_map` binding to care about). -/
theorem inv_set_iff (h : List FrozenItem) (cm : List (Nat × Nat)) (id : Nat)
    (it it' : FrozenItem)
    (hInv : checksumInv h cm) (hid : h.get? id = some it)
    (hck : it'.checksum = it.checksum) (hiff : itemLive it' ↔ itemLive it) :
    checksumInv (h.set id it') cm := by
  by_cases hl : itemLive it
  · exact inv_set h cm id it it' hInv hid hck (hiff.mpr hl) (hInv.2.1 id it hid hl)
  · obtain ⟨h1, h2, h3⟩ := hInv
    refine ⟨?_, ?_, h3⟩
    · intro pr hpr
      obtain ⟨it0, hit0, hc0, hl0⟩ := h1 pr hpr
      by_cases hpr2 : pr.2 = id
      · rw [hpr2, hid] at hit0
        cases hit0
        exact absurd hl0 hl
      · exact ⟨it0, by rw [get?_set_ne _ _ _ _ (fun hc => hpr2 hc.symm)]; exact hit0, hc0, hl0⟩
    · intro id' it'' hit'' hl''
      by_cases hid' : id' = id
      · subst hid'
        rw [get?_set_self _ _ _ (lt_length_of_get?_some _ _ _ hid)] at hit''
        cases hit''
        exact absurd (hiff.mp hl'') hl
      · rw [get?_set_ne _ _ _ _ (fun hc => hid' hc.symm)] at hit''
        exact h2 id' it'' hit'' hl''

/-- Overwriting a registered item with a dead item of the same checksum
and erasing its checksum binding preserves the invariant. -/
theorem inv_set_dead (h : List FrozenItem) (cm : List (Nat × Nat)) (id : Nat)
    (it it' : FrozenItem)
    (hInv : checksumInv h cm) (hid : h.get? id = some it)
    (hck : it'.checksum = it.checksum) (hdead : ¬itemLive it')
    (hreg : alookup it.checksum cm = some id) :
    checksumInv (h.set id it') (aerase it.checksum cm) := by
  obtain ⟨h1, h2, h3⟩ := hInv
  refine ⟨?_, ?_, nodup_akeys_aerase _ _ h3⟩
  · intro pr hpr
    have hmem := mem_of_mem_aerase _ _ _ hpr
    obtain ⟨it0, hit0, hc0, hl0⟩ := h1 pr hmem
    have hpr2 : pr.2 ≠ id := by
      intro hc
      rw [hc, hid] at hit0
      cases hit0
      have : pr.1 = it.checksum := hc0.symm
      have hppair : pr = (it.checksum, id) := by
        obtain ⟨a, b⟩ := pr
        simp only at this hc
        rw [this, hc]
      rw [hppair] at hpr
      exact pair_not_mem_aerase_self _ _ _ h3 hpr
    exact ⟨it0, by rw [get?_set_ne _ _ _ _ (fun hc => hpr2 hc.symm)]; exact hit0, hc0, hl0⟩
  · intro id' it'' hit'' hl''
    by_cases hid' : id' = id
    · subst hid'
      rw [get?_set_self _ _ _ (lt_length_of_get?_some _ _ _ hid)] at hit''
      cases hit''
      exact absurd hl'' hdead
    · rw [get?_set_ne _ _ _ _ (fun hc => hid' hc.symm)] at hit''
      have hlook := h2 id' it'' hit'' hl''
      by_cases hcc : it''.checksum = it.checksum
      · rw [hcc] at hlook
        rw [hreg] at hlook
        cases hlook
        exact absurd rfl hid'
      · rw [alookup_aerase_ne _ _ _ hcc]
        exact h2 id' it'' hit'' hl''

/-! ## Claim C3: heap/checksum-map effect of each operation -/

theorem dIDabs_heap (it : FrozenItem) (ap : Option Nat) (s2 : St) :
    ((dIDabs it ap s2).1).heap = s2.heap := by
  unfold dIDabs
  cases ap with
  | none => rfl
  | some p => by_cases h : it.files.isEmpty = true <;> simp [h]

theorem dIDabs_cm (it : FrozenItem) (ap : Option Nat) (s2 : St) :
    ((dIDabs it ap s2).1).checksum_map = s2.checksum_map := by
  unfold dIDabs
  cases ap with
  | none => rfl
  | some p => by_cases h : it.files.isEmpty = true <;> simp [h]

theorem dIDcm_heap (s : St) (id : Nat) : (dIDcm s id).heap = s.heap := by
  unfold dIDcm
  split <;> rfl

theorem dIDcm_cm (s : St) (id : Nat) :
    (dIDcm s id).checksum_map =
      if ((heapGet s id).freezetags.isEmpty && (heapGet s id).files.isEmpty) = true
      then aerase (heapGet s id).checksum s.checksum_map
      else s.checksum_map := by
  unfold dIDcm
  split <;> simp_all

theorem dID_heap (s : St) (id : Nat) (fp : Option (List String)) (ap : Option Nat) :
    ((deleteIfDangling s id fp ap).1).heap = s.heap := by
  unfold deleteIfDangling
  split
  · split
    · rw [dIDabs_heap, dIDcm_heap]
    · split
      · exact dIDcm_heap s id
      · rw [dIDabs_heap]
        exact dIDcm_heap s id
  · rw [dIDabs_heap, dIDcm_heap]

theorem dID_cm (s : St) (id : Nat) (fp : Option (List String)) (ap : Option Nat) :
    ((deleteIfDangling s id fp ap).1).checksum_map = (dIDcm s id).checksum_map := by
  unfold deleteIfDangling
  split
  · split
    · rw [dIDabs_cm]
    · split
      · rfl
      · rw [dIDabs_cm]
  · rw [dIDabs_cm]

/-- Removing entries from (or otherwise rewriting) a registered item and
running `_delete_if_dangling` on it preserves the invariant, whether or
not the pruning walk raises. -/
theorem inv_set_dangle (s : St) (id : Nat) (it it' : FrozenItem)
    (fp : Option (List String)) (ap : Option Nat)
    (hInv : checksumInv s.heap s.checksum_map)
    (hid : s.heap.get? id = some it)
    (hck : it'.checksum = it.checksum)
    (hreg : alookup it.checksum s.checksum_map = some id) :
    checksumInv ((deleteIfDangling (heapSet s id it') id fp ap).1).heap
      ((deleteIfDangling (heapSet s id it') id fp ap).1).checksum_map := by
  rw [dID_heap, dID_cm, dIDcm_cm]
  have hlt : id < s.heap.length := lt_length_of_get?_some _ _ _ hid
  have hg : heapGet (heapSet s id it') id = it' := heapGet_heapSet_lt s id it' hlt
  rw [hg]
  have hheap : (heapSet s id it').heap = s.heap.set id it' := rfl
  have hcmm : (heapSet s id it').checksum_map = s.checksum_map := rfl
  rw [hheap, hcmm]
  by_cases hdead : (it'.freezetags.isEmpty && it'.files.isEmpty) = true
  · rw [if_pos hdead, hck]
    simp only [Bool.and_eq_true, List.isEmpty_iff] at hdead
    refine inv_set_dead s.heap s.checksum_map id it it' hInv hid hck ?_ hreg
    intro hl
    rcases hl with hl | hl
    · exact hl hdead.1
    · exact hl hdead.2
  · rw [if_neg hdead]
    simp only [Bool.and_eq_true, List.isEmpty_iff] at hdead
    refine inv_set s.heap s.checksum_map id it it' hInv hid hck ?_ hreg
    by_cases h1 : it'.freezetags = []
    · exact Or.inr (fun h2 => hdead ⟨h1, h2⟩)
    · exact Or.inl h1

theorem purgeCache_frame (s : St) (p : Nat) (f : Bool) :
    (purgeCache s p f).heap = s.heap ∧
    (purgeCache s p f).tree = s.tree ∧
    (purgeCache s p f).checksum_map = s.checksum_map ∧
    (purgeCache s p f).abs_path_map = s.abs_path_map ∧
    (purgeCache s p f).freezetag_map = s.freezetag_map ∧
    (purgeCache s p f).inactive = s.inactive := by
  unfold purgeCache
  split <;> exact ⟨rfl, rfl, rfl, rfl, rfl, rfl⟩

theorem purgeFtag_frame (s : St) (p : Nat) (f : Bool) :
    (purgeFtag s p f).heap = s.heap ∧
    (purgeFtag s p f).tree = s.tree ∧
    (purgeFtag s p f).checksum_map = s.checksum_map ∧
    (purgeFtag s p f).abs_path_map = s.abs_path_map ∧
    (purgeFtag s p f).freezetag_map = s.freezetag_map ∧
    (purgeFtag s p f).inactive = s.inactive := by
  unfold purgeFtag
  split
  · exact ⟨(purgeCache_frame s p f).1, (purgeCache_frame s p f).2.1,
      (purgeCache_frame s p f).2.2.1, (purgeCache_frame s p f).2.2.2.1,
      (purgeCache_frame s p f).2.2.2.2.1, (purgeCache_frame s p f).2.2.2.2.2⟩
  · exact purgeCache_frame s p f

theorem getD_of_get?_some (l : List α) (i : Nat) (a d : α) (h : l.get? i = some a) :
    l.getD i d = a := by
  induction l generalizing i with
  | nil => simp [List.get?] at h
  | cons x xs ih =>
      cases i with
      | zero =>
          simp only [List.get?] at h
          cases h
          rfl
      | succ n => simpa [List.getD] using ih n (by simpa using h)

theorem get?_eq_some_getD (l : List α) (i : Nat) (d : α) (h : i < l.length) :
    l.get? i = some (l.getD i d) := by
  induction l generalizing i with
  | nil => simp at h
  | cons x xs ih =>
      cases i with
      | zero => rfl
      | succ n => simpa [List.getD] using ih n (by simpa using h)

theorem find?_some_ne_nil (p : α → Bool) (l : List α) (a : α) (h : l.find? p = some a) :
    l ≠ [] := by
  cases l with
  | nil => simp at h
  | cons x xs => simp

theorem updateFirst_eq_nil_iff (p : α → Bool) (f : α → α) (l : List α) :
    updateFirst p f l = [] ↔ l = [] := by
  cases l with
  | nil => simp [updateFirst]
  | cons x xs => by_cases h : p x <;> simp [updateFirst, h]

/-- `findOrCreateF` preserves the checksum-map invariant. -/
theorem inv_findOrCreateF (s : St) (c : Nat) (e : FtagEntry)
    (hInv : checksumInv s.heap s.checksum_map) :
    checksumInv ((findOrCreateF s c e).2).heap ((findOrCreateF s c e).2).checksum_map := by
  unfold findOrCreateF
  cases halo : alookup c s.checksum_map with
  | none =>
      exact inv_append s.heap s.checksum_map c [e] [] hInv halo (Or.inl (by simp))
  | some id =>
      have hmem := alookup_some_mem c id s.checksum_map halo
      obtain ⟨it, hit, hck, hl⟩ := hInv.1 (c, id) hmem
      have hg : heapGet s id = it := getD_of_get?_some _ _ _ _ hit
      show checksumInv
        (s.heap.set id { heapGet s id with freezetags := (heapGet s id).freezetags ++ [e] })
        s.checksum_map
      rw [hg]
      refine inv_set s.heap s.checksum_map id it _ hInv hit rfl (Or.inl (by simp)) ?_
      rw [hck]
      exact halo

theorem addFreezetagEntry_heap_cm (s : St) (c : Nat) (e : FtagEntry) :
    ((addFreezetagEntry s c e).1).heap = ((findOrCreateF s c e).2).heap ∧
    ((addFreezetagEntry s c e).1).checksum_map = ((findOrCreateF s c e).2).checksum_map := by
  unfold addFreezetagEntry
  rcases hfc : findOrCreateF s c e with ⟨id, s2⟩
  simp only [hfc]
  split
  · exact ⟨rfl, rfl⟩
  · split
    · exact ⟨rfl, rfl⟩
    · split <;> exact ⟨rfl, rfl⟩

/-- `_add_freezetag_entry` preserves the checksum-map invariant, at every
exit including the `AssertionError` and `TypeError` ones. -/
theorem inv_addFreezetagEntry (s : St) (c : Nat) (e : FtagEntry)
    (hInv : checksumInv s.heap s.checksum_map) :
    checksumInv ((addFreezetagEntry s c e).1).heap
      ((addFreezetagEntry s c e).1).checksum_map := by
  rw [(addFreezetagEntry_heap_cm s c e).1, (addFreezetagEntry_heap_cm s c e).2]
  exact inv_findOrCreateF s c e hInv

/-- `_add_path_entry` preserves the checksum-map invariant. -/
theorem inv_addPathEntry (s : St) (c : Nat) (e : FileEntry)
    (hInv : checksumInv s.heap s.checksum_map) :
    checksumInv (addPathEntry s c e).heap (addPathEntry s c e).checksum_map := by
  unfold addPathEntry
  cases halo : alookup c s.checksum_map with
  | none =>
      exact inv_append s.heap s.checksum_map c [] [e] hInv halo (Or.inr (by simp))
  | some id =>
      have hmem := alookup_some_mem c id s.checksum_map halo
      obtain ⟨it, hit, hck, hl⟩ := hInv.1 (c, id) hmem
      have hg : heapGet s id = it := getD_of_get?_some _ _ _ _ hit
      show checksumInv
        (s.heap.set id { heapGet s id with files := (heapGet s id).files ++ [e] })
        s.checksum_map
      rw [hg]
      refine inv_set s.heap s.checksum_map id it _ hInv hit rfl (Or.inr (by simp)) ?_
      rw [hck]
      exact halo

/-- The per-file mounting loop preserves the checksum-map invariant. -/
theorem inv_addFtagFiles (p : Nat) (root : List String) (fs : List FtagFile) (s : St)
    (hInv : checksumInv s.heap s.checksum_map) :
    checksumInv ((addFtagFiles s p root fs).1).heap
      ((addFtagFiles s p root fs).1).checksum_map := by
  induction fs generalizing s with
  | nil => exact hInv
  | cons f fs ih =>
      unfold addFtagFiles
      rcases hae : addFreezetagEntry s f.checksum ⟨p, root ++ f.path, f.metadata_len⟩
        with ⟨s1, err⟩
      have hInv1 : checksumInv s1.heap s1.checksum_map := by
        have h := inv_addFreezetagEntry s f.checksum ⟨p, root ++ f.path, f.metadata_len⟩ hInv
        rw [hae] at h
        exact h
      cases err with
      | some er => simp only [hae]; exact hInv1
      | none =>
          simp only [hae]
          exact ih _ hInv1

/-- `_add_ftag` preserves the checksum-map invariant. -/
theorem inv_addFtag (env : Env) (s : St) (p : Nat)
    (hInv : checksumInv s.heap s.checksum_map) :
    checksumInv ((addFtag env s p).1).heap ((addFtag env s p).1).checksum_map := by
  unfold addFtag
  rcases hc : cacheGetFtag env s p with ⟨v, s1⟩
  have hf := cacheGetFtag_frame env s p
  rw [hc] at hf
  have hInv1 : checksumInv s1.heap s1.checksum_map := by
    have hh : s1.heap = s.heap := hf.1
    have hcm : s1.checksum_map = s.checksum_map := hf.2.2.1
    rw [hh, hcm]
    exact hInv
  cases v with
  | none => simp only [hc]; exact hInv1
  | some d =>
      simp only [hc]
      have hsf := schedulePurge_frame s1 p
      have hInv2 : checksumInv (schedulePurge s1 p).heap (schedulePurge s1 p).checksum_map := by
        rw [hsf.1, hsf.2.2.1]
        exact hInv1
      split
      · exact hInv2
      · split
        · exact hInv2
        · exact inv_addFtagFiles _ _ _ _ hInv2

/-- `_add_file` preserves the checksum-map invariant. -/
theorem inv_addFile (env : Env) (s : St) (p : Nat)
    (hInv : checksumInv s.heap s.checksum_map) :
    checksumInv (addFile env s p).heap (addFile env s p).checksum_map := by
  unfold addFile
  cases h : env.fileInfo p with
  | none => exact hInv
  | some pr =>
      obtain ⟨c, m⟩ := pr
      exact inv_addPathEntry s c ⟨p, m⟩ hInv

/-- `on_created` preserves the checksum-map invariant. -/
theorem inv_onCreated (env : Env) (s : St) (p : Nat)
    (hInv : checksumInv s.heap s.checksum_map) :
    checksumInv ((onCreated env s p).1).heap ((onCreated env s p).1).checksum_map := by
  unfold onCreated
  split
  · exact hInv
  · split
    · exact inv_addFtag env s p hInv
    · exact inv_addFile env s p hInv

/-- The entry-removal loop of freezetag deletion preserves the
checksum-map invariant at every exit, including a mid-loop `KeyError` or
a pruning exception. -/
theorem inv_removeFtagEntries (fpath : Nat) (cs : List Nat) (s : St)
    (hInv : checksumInv s.heap s.checksum_map) :
    checksumInv ((removeFtagEntries fpath s cs).1).heap
      ((removeFtagEntries fpath s cs).1).checksum_map := by
  induction cs generalizing s with
  | nil => exact hInv
  | cons c cs ih =>
      unfold removeFtagEntries
      cases halo : alookup c s.checksum_map with
      | none => exact hInv
      | some id =>
          simp only []
          have hmem := alookup_some_mem c id s.checksum_map halo
          obtain ⟨it, hit, hck, hl⟩ := hInv.1 (c, id) hmem
          have hg : heapGet s id = it := getD_of_get?_some _ _ _ _ hit
          have hit2 : s.heap.get? id = some (heapGet s id) := by rw [hg]; exact hit
          have hck2 : (heapGet s id).checksum = c := by rw [hg]; exact hck
          cases hfind : (heapGet s id).freezetags.find? (fun e => e.freezetag_path == fpath) with
          | none => simp only [hfind]; exact ih s hInv
          | some e0 =>
              simp only [hfind]
              have hdangle := inv_set_dangle s id (heapGet s id)
                { heapGet s id with freezetags :=
                    ((heapGet s id).freezetags.eraseP (fun e => e.freezetag_path == fpath)) }
                (some e0.path) none hInv hit2 rfl (by rw [hck2]; exact halo)
              rcases hdid : deleteIfDangling
                  (heapSet s id
                    { heapGet s id with freezetags :=
                        ((heapGet s id).freezetags.eraseP (fun e => e.freezetag_path == fpath)) })
                  id (some e0.path) none with ⟨s2, err2⟩
              rw [hdid] at hdangle
              cases err2 with
              | some er => simp only [hdid]; exact hdangle
              | none => simp only [hdid]; exact ih s2 hdangle

/-- The entry-rename loop of a freezetag rename preserves the
checksum-map invariant. -/
theorem inv_renameFtagEntries (src dst : Nat) (cs : List Nat) (s : St)
    (hInv : checksumInv s.heap s.checksum_map) :
    checksumInv ((renameFtagEntries src dst s cs).1).heap
      ((renameFtagEntries src dst s cs).1).checksum_map := by
  induction cs generalizing s with
  | nil => exact hInv
  | cons c cs ih =>
      unfold renameFtagEntries
      cases halo : alookup c s.checksum_map with
      | none => exact hInv
      | some id =>
          simp only []
          have hmem := alookup_some_mem c id s.checksum_map halo
          obtain ⟨it, hit, hck, hl⟩ := hInv.1 (c, id) hmem
          have hg : heapGet s id = it := getD_of_get?_some _ _ _ _ hit
          have hit2 : s.heap.get? id = some (heapGet s id) := by
            rw [hg]
            exact hit
          have hset := inv_set_iff s.heap s.checksum_map id (heapGet s id)
            { heapGet s id with freezetags :=
                (updateFirst (fun e => e.freezetag_path == src)
                  (fun e => { e with freezetag_path := dst }) (heapGet s id).freezetags) }
            hInv hit2 rfl
            (by simp [itemLive, updateFirst_eq_nil_iff])
          exact ih _ hset

/-- The promotion loop preserves the checksum-map invariant. -/
theorem inv_promoteInactive (env : Env) (s : St) (root : List String)
    (hInv : checksumInv s.heap s.checksum_map) :
    checksumInv ((promoteInactive env s root).1).heap
      ((promoteInactive env s root).1).checksum_map := by
  unfold promoteInactive
  cases h : findRemoveFirst (fun t => t.1 == root) s.inactive with
  | none => exact hInv
  | some pr =>
      obtain ⟨t, rest⟩ := pr
      exact inv_addFtag env _ t.2 hInv

/-- `on_deleted` preserves the checksum-map invariant at every exit. -/
theorem inv_onDeleted (env : Env) (s : St) (p : Nat)
    (hInv : checksumInv s.heap s.checksum_map) :
    checksumInv ((onDeleted env s p).1).heap ((onDeleted env s p).1).checksum_map := by
  unfold onDeleted
  split
  · -- content-file branch
    cases habs : alookup p s.abs_path_map with
    | none => exact hInv
    | some id =>
        simp only []
        cases hfind : (heapGet s id).files.find? (fun e => e.path == p) with
        | none => simp only [hfind]; exact hInv
        | some fe =>
            have hlt : id < s.heap.length := by
              by_contra hc
              rw [heapGet_oob s id (Nat.le_of_not_lt hc)] at hfind
              simp at hfind
            have hid : s.heap.get? id = some (heapGet s id) :=
              get?_eq_some_getD s.heap id ⟨0, [], []⟩ hlt
            have hlive : itemLive (heapGet s id) :=
              Or.inr (find?_some_ne_nil _ _ _ hfind)
            have hreg := hInv.2.1 id (heapGet s id) hid hlive
            simp only [hfind]
            exact inv_set_dangle s id (heapGet s id)
              { heapGet s id with files := ((heapGet s id).files.eraseP (fun e => e.path == p)) }
              none (some p) hInv hid rfl hreg
  · -- freezetag branch
    simp only []
    have hpf := purgeFtag_frame s p true
    have hInv1 : checksumInv (purgeFtag s p true).heap (purgeFtag s p true).checksum_map := by
      rw [hpf.1, hpf.2.2.1]
      exact hInv
    cases hfm : alookup p (purgeFtag s p true).freezetag_map with
    | none =>
        cases hfr : findRemoveFirst (fun t => t.2 == p) (purgeFtag s p true).inactive with
        | none => exact hInv1
        | some pr =>
            obtain ⟨t, rest⟩ := pr
            exact hInv1
    | some fm =>
        obtain ⟨root, cs⟩ := fm
        have hrem := inv_removeFtagEntries p cs (purgeFtag s p true) hInv1
        rcases hr : removeFtagEntries p (purgeFtag s p true) cs with ⟨s2, err2⟩
        rw [hr] at hrem
        cases err2 with
        | some er => simp only [hr]; exact hrem
        | none =>
            simp only [hr]
            exact inv_promoteInactive env _ root hrem

/-- `on_moved` preserves the checksum-map invariant at every exit. -/
theorem inv_onMoved (env : Env) (s : St) (src dst : Nat)
    (hInv : checksumInv s.heap s.checksum_map) :
    checksumInv ((onMoved env s src dst).1).heap ((onMoved env s src dst).1).checksum_map := by
  unfold onMoved
  split
  · exact hInv
  · split
    · -- freezetag branch
      simp only []
      have hpf := purgeFtag_frame s src true
      have hInv1 : checksumInv (purgeFtag s src true).heap
          (purgeFtag s src true).checksum_map := by
        rw [hpf.1, hpf.2.2.1]
        exact hInv
      cases hfm : alookup src (purgeFtag s src true).freezetag_map with
      | none => exact hInv1
      | some fm => exact inv_renameFtagEntries src dst fm.2 _ hInv1
    · -- content branch
      cases habs : alookup src s.abs_path_map with
      | none => exact hInv
      | some id =>
          by_cases hlt : id < s.heap.length
          · have hid : s.heap.get? id = some (heapGet s id) :=
              get?_eq_some_getD s.heap id ⟨0, [], []⟩ hlt
            exact inv_set_iff s.heap s.checksum_map id (heapGet s id)
              { heapGet s id with files :=
                  ((heapGet s id).files.map
                    (fun e => if e.path == src then { e with path := dst } else e)) }
              hInv hid rfl
              (by simp [itemLive, List.map_eq_nil])
          · have hoob := Nat.le_of_not_lt hlt
            show checksumInv
              (s.heap.set id
                { heapGet s id with files :=
                    ((heapGet s id).files.map
                      (fun e => if e.path == src then { e with path := dst } else e)) })
              s.checksum_map
            rw [list_set_oob _ _ _ hoob]
            exact hInv

/-- `on_modified` preserves the checksum-map invariant. -/
theorem inv_onModified (env : Env) (s : St) (p : Nat)
    (hInv : checksumInv s.heap s.checksum_map) :
    checksumInv ((onModified env s p).1).heap ((onModified env s p).1).checksum_map := by
  unfold onModified
  have hdel := inv_onDeleted env s p hInv
  rcases hd : onDeleted env s p with ⟨s1, err⟩
  rw [hd] at hdel
  cases err with
  | some er => simp only [hd]; exact hdel
  | none => simp only [hd]; exact inv_onCreated env s1 p hdel

/-- One watcher step preserves the checksum-map invariant. -/
theorem inv_step (env : Env) (s : St) (e : Ev)
    (hInv : checksumInv s.heap s.checksum_map) :
    checksumInv ((step env s e).1).heap ((step env s e).1).checksum_map := by
  cases e with
  | created p => exact inv_onCreated env s p hInv
  | deleted p => exact inv_onDeleted env s p hInv
  | moved a b => exact inv_onMoved env s a b hInv
  | modified p => exact inv_onModified env s p hInv

/-- C3: after every sequence of watcher/scan events from the initial
state — covering `_add_file`, `_add_ftag`, content-file and freezetag
deletion, the rename flows and `on_modified`, with traces stopping at an
escaped exception — `checksum_map` binds exactly the checksums of items
with at least one entry in `freezetags` or `files`: every binding points
to a live item carrying that checksum, and every live item of the heap is
registered under its checksum; an item whose two collections are both
empty has no binding. -/
theorem c3_theorem (env : Env) (es : List Ev) :
    checksumInv (runTrace env initSt es).heap (runTrace env initSt es).checksum_map := by
  suffices h : ∀ s, checksumInv s.heap s.checksum_map →
      checksumInv (runTrace env s es).heap (runTrace env s es).checksum_map by
    refine h initSt ⟨?_, ?_, ?_⟩
    · intro pr hpr
      simp [initSt] at hpr
    · intro id it hit hl
      simp [initSt, List.get?] at hit
    · simp [initSt, akeys]
  induction es with
  | nil => intro s h; exact h
  | cons e es ih =>
      intro s h
      unfold runTrace
      rcases hs : step env s e with ⟨s', err⟩
      have h' : checksumInv s'.heap s'.checksum_map := by
        have h2 := inv_step env s e h
        rw [hs] at h2
        exact h2
      cases err with
      | some er => simp only [hs]; exact h'
      | none => simp only [hs]; exact ih s' h'

end Freezefs
